import Mathlib

/-!
# Verification of the network decomposition core (`biosteam/_network.py`)

Shallow embedding of the graph-decomposition and topological-ordering engine:
path enumeration (`fill_path`), path reduction (`simplified_linear_paths`),
the nested `Network` data structure with its merge operators
(`join_linear_network`, `join_recycle_network`, `join_network_at_unit`,
`_append_network`, `add_recycle`), the bounded ordering pass (`Network.sort`),
the heat-exchanger pairing pass (`add_process_heat_exchangers`), recycle
reduction (`reduce_recycles`) and the builder (`Network.from_feedstock`).

Modelling conventions:
* units (nodes) and streams (edges) are identified by natural numbers; Python
  object identity of two distinct unit/stream objects coincides with equality
  of their identifiers;
* Python sets of units/streams are `Finset Nat`; mutable state is threaded
  explicitly; methods that can raise return `Except String`;
* recursions that are not structural in Python (depth-first traversal, merge
  recursion into nested sub-networks, the index loop of the heat-exchanger
  pass) take an explicit fuel argument and fail with a distinguished
  `"fuel"` error when it runs out; callers pass fuel that is large enough for
  every terminating Python run, so a run that returns `.ok` (or a non-fuel
  error) computes exactly what the Python code computes.
-/

set_option maxRecDepth 4000

/-- The flow graph, together with the ambient data `Network.from_feedstock`
consumes: the allowed unit set (the `units` argument), the finite stream
universe and the process-wide disjunction registry.  Streams and units are
identified by `Nat` identifiers. -/
structure Graph where
  /-- `stream._sink`: the unit consuming the stream, if any. -/
  sinkOf : Nat → Option Nat
  /-- `stream._source`: the unit producing the stream, if any. -/
  sourceOf : Nat → Option Nat
  /-- `unit._outs`: the ordered outlet streams of a unit. -/
  outs : Nat → List Nat
  /-- `isinstance(unit, Facility)`. -/
  facility : Nat → Bool
  /-- `isinstance(unit, bst.HXprocess)`. -/
  isHX : Nat → Bool
  /-- the `units` argument of `from_feedstock`: units allowed in the network. -/
  allowed : List Nat
  /-- all stream identifiers of the flowsheet (finite universe). -/
  streamIds : List Nat
  /-- stream ids held by the global `disjunctions` registry. -/
  disjunctions : List Nat

/-- The three result accumulators threaded through `fill_path`:
`paths_with_recycle` (pairs of a unit path and the closing stream),
`paths_without_recycle`, and the mutable `ends` stream set. -/
structure FPState where
  pwr : List (List Nat × Nat)
  pwor : List (List Nat)
  ends : List Nat
deriving Repr, DecidableEq

/-- `fill_path(feed, path, paths_with_recycle, paths_without_recycle, ends, units)`.
Faithful to the source: a stream already in `ends` is classified by the
`has_recycle` test (cycle-closing exactly when its sink is already on the
current path and some previously recorded recycle closes at the same sink);
a dead end, facility sink or disallowed sink records a linear path; a sink
already on the path records a cycle-closing path and adds the closing stream
to `ends`; otherwise the sink is appended and every outlet is traversed, the
non-first outlets on a copy of the path first, then the first outlet.
The fuel only bounds recursion depth, which Python bounds by the number of
allowed units (each recursion step appends a fresh allowed unit to `path`). -/
def fill_path (g : Graph) : Nat → Nat → List Nat → FPState → FPState
  | 0, _, _, st => st
  | fuel+1, feed, path, st =>
    match g.sinkOf feed with
    | none => { st with pwor := st.pwor ++ [path] }
    | some unit =>
      let hasRecycle : Option Bool :=
        if feed ∈ st.ends then
          some (decide (unit ∈ path) && st.pwr.any (fun pr => g.sinkOf pr.2 == some unit))
        else none
      if g.facility unit || hasRecycle == some false || !(g.allowed.contains unit) then
        { st with pwor := st.pwor ++ [path] }
      else if hasRecycle == some true || path.contains unit then
        { st with pwr := st.pwr ++ [(path, feed)],
                  ends := if feed ∈ st.ends then st.ends else st.ends ++ [feed] }
      else
        let path2 := path ++ [unit]
        match g.outs unit with
        | [] => st
        | first :: others =>
          let st1 := others.foldl (fun acc o => fill_path g fuel o path2 acc) st
          fill_path g fuel first path2 st1

/-- Fuel sufficient for `fill_path`: the recursion appends one allowed unit to
the path at every level, so its depth is at most `|allowed| + 1`. -/
def fillFuel (g : Graph) : Nat := g.allowed.length + 1

/-- `find_paths_with_and_without_recycle(feed, ends, units)`. -/
def find_paths_with_and_without_recycle (g : Graph) (feed : Nat) (ends : List Nat) :
    FPState :=
  fill_path g (fillFuel g) feed [] ⟨[], [], ends⟩

/-! ## Concrete graph for the disjunction claim (C1)

Units: a mixer-like unit `M = 1` and two downstream units `S1 = 2`, `S2 = 3`.
Streams: `10` (feed, sink `M`), `4` (`M → S1`), `5` (`M → S2`),
`6` (`S1 → M`), `7` (`S2 → M`).  Stream `7` is marked through the disjunction
registry, so a `from_units` traversal seeds `ends` with it.
`M._outs = [5, 4]`, so the branch through `S1` (closing the cycle with
stream `6` at sink `M`) is traversed before stream `5`. -/
def gC1 : Graph where
  sinkOf := fun s => if s = 10 then some 1 else if s = 4 then some 2 else
    if s = 5 then some 3 else if s = 6 then some 1 else if s = 7 then some 1 else none
  sourceOf := fun s => if s = 4 ∨ s = 5 then some 1 else
    if s = 6 then some 2 else if s = 7 then some 3 else none
  outs := fun u => if u = 1 then [5, 4] else if u = 2 then [6] else
    if u = 3 then [7] else []
  facility := fun _ => false
  isHX := fun _ => false
  allowed := [1, 2, 3]
  streamIds := [10, 4, 5, 6, 7]
  disjunctions := [7]

/-! ## Path reduction (`simplified_linear_paths`) -/

/-- `simplify_linear_path(path, unit_sets)`: iterate over a copy of `path`;
a unit lying in any of the given sets is removed (first occurrence) from the
working list.  The source guards on `path` and `unit_sets` being nonempty;
with either empty the loop body never fires, which the fold reproduces. -/
def simplify_linear_path (path : List Nat) (unitSets : List (Finset Nat)) : List Nat :=
  path.foldl (fun acc u => if unitSets.any (fun s => u ∈ s) then acc.erase u else acc) path

/-- One step of `add_back_ends`: append the outlet's sink when it belongs to
`units`. -/
def backEndStep (g : Graph) (units : Finset Nat) (acc : List Nat) (s : Nat) : List Nat :=
  match g.sinkOf s with
  | some sink => if sink ∈ units then acc ++ [sink] else acc
  | none => acc

/-- `add_back_ends(path, units)`: for each outlet of the last unit of `path`
whose sink belongs to `units`, append that sink. -/
def add_back_ends (g : Graph) (path : List Nat) (units : Finset Nat) : List Nat :=
  match path.getLast? with
  | none => path
  | some last => (g.outs last).foldl (backEndStep g units) path

/-- Stable ascending insertion by length (`linear_paths.sort(key=len)`):
an element is placed after every earlier element of smaller or equal length. -/
def insertByLen (x : List Nat) : List (List Nat) → List (List Nat)
  | [] => [x]
  | y :: ys => if x.length < y.length then x :: y :: ys else y :: insertByLen x ys

/-- Stable sort of the linear paths by ascending length. -/
def sortByLen (l : List (List Nat)) : List (List Nat) :=
  l.foldl (fun acc x => insertByLen x acc) []

/-- The reduction loop over the (sorted) paths: path `i` is simplified against
the node sets of the paths after it, surviving nonempty paths get their back
ends re-attached and are collected. -/
def simpLoop (g : Graph) (units : Finset Nat) : List (List Nat) → List (List Nat)
  | [] => []
  | p :: rest =>
    let p2 := simplify_linear_path p (rest.map List.toFinset)
    let tail := simpLoop g units rest
    if p2.isEmpty then tail else add_back_ends g p2 units :: tail

/-- `simplified_linear_paths(linear_paths)`. -/
def simplified_linear_paths (g : Graph) (linearPaths : List (List Nat)) :
    List (List Nat) :=
  if linearPaths.isEmpty then linearPaths else
  let sorted := sortByLen linearPaths
  let units : Finset Nat := (sorted.map List.toFinset).foldl (· ∪ ·) ∅
  (simpLoop g units sorted).reverse

/-- `path_with_recycle_to_cyclic_path_with_recycle`: truncate the path to start
at the recycle sink.  `fill_path` only records a closing stream whose sink is
on the path, so `indexOf` never misses here (Python would raise otherwise). -/
def path_with_recycle_to_cyclic (g : Graph) (pr : List Nat × Nat) : List Nat × Nat :=
  match g.sinkOf pr.2 with
  | none => pr
  | some unit => (pr.1.drop (pr.1.indexOf unit), pr.2)

/-- Stable descending insertion by path length
(`cyclic_paths_with_recycle.sort(key=lambda x: -len(x[0]))`). -/
def insertByLenDesc (x : List Nat × Nat) : List (List Nat × Nat) → List (List Nat × Nat)
  | [] => [x]
  | y :: ys => if x.1.length > y.1.length then x :: y :: ys else y :: insertByLenDesc x ys

/-- `find_linear_and_cyclic_paths_with_recycle(feed, ends, units)`: returns the
reduced linear paths, the cyclic paths sorted by descending length, and the
mutated `ends`. -/
def find_linear_and_cyclic_paths_with_recycle (g : Graph) (feed : Nat)
    (ends : List Nat) : List (List Nat) × List (List Nat × Nat) × List Nat :=
  let st := find_paths_with_and_without_recycle g feed ends
  let cyclic := (st.pwr.map (path_with_recycle_to_cyclic g)).foldl
    (fun acc x => insertByLenDesc x acc) []
  (simplified_linear_paths g st.pwor, cyclic, st.ends)

/-! ## The `Network` data structure -/

/-- The dynamic shape of `Network.recycle`: `None`, a single stream, a set of
streams, or any other Python value (`other`), which the code can store
unchecked when no recycle is present yet. -/
inductive Recycle where
  | none
  | single (s : Nat)
  | many (ss : Finset Nat)
  | other
deriving DecidableEq

/-- Python truthiness of a `recycle` value (`if recycle:`): `None` and the
empty set are falsy, everything else truthy. -/
def Recycle.truthy : Recycle → Bool
  | .none => false
  | .single _ => true
  | .many ss => decide (ss ≠ ∅)
  | .other => true

/-- The set of streams referenced by a recycle marking. -/
def Recycle.streams : Recycle → Finset Nat
  | .none => ∅
  | .single s => {s}
  | .many ss => ss
  | .other => ∅

/-- Python `is` between a stored recycle and an `add_recycle` argument: stream
objects are identified by their ids; two distinct container objects (sets) are
never identical, which is how every call site of the embedding behaves. -/
def Recycle.isSame : Recycle → Recycle → Bool
  | .single a, .single b => a == b
  | _, _ => false

mutual
/-- `Network(path, recycle)` with its two cached fields: the `units` node set
and `recycle_sink`. -/
inductive Network : Type where
  | mk : List NElem → Recycle → Option Nat → Finset Nat → Network
/-- An element of `Network.path`: a unit or a nested sub-network. -/
inductive NElem : Type where
  | unit : Nat → NElem
  | net : Network → NElem
end

def Network.path : Network → List NElem
  | .mk p _ _ _ => p

def Network.recycle : Network → Recycle
  | .mk _ r _ _ => r

def Network.recycle_sink : Network → Option Nat
  | .mk _ _ s _ => s

def Network.units : Network → Finset Nat
  | .mk _ _ _ u => u

def NElem.isUnit : NElem → Bool
  | .unit _ => true
  | .net _ => false

mutual
/-- The flattened node set actually contained in a path (the spec's
`member_nodes` recomputed from `elements`). -/
def pathFlat : List NElem → Finset Nat
  | [] => ∅
  | .unit u :: rest => insert u (pathFlat rest)
  | .net n :: rest => netFlat n ∪ pathFlat rest
/-- The flattened node set of a network. -/
def netFlat : Network → Finset Nat
  | .mk p _ _ _ => pathFlat p
end

mutual
/-- The cached-units invariant, recursively: every (nested) network's `units`
field equals the flattened node set of its path. -/
def pathConsistent : List NElem → Bool
  | [] => true
  | .unit _ :: rest => pathConsistent rest
  | .net n :: rest => netConsistent n && pathConsistent rest
def netConsistent : Network → Bool
  | .mk p _ _ u => (u == pathFlat p) && pathConsistent p
end

mutual
/-- Number of positions at which unit `u` occurs in a path, nested networks
included. -/
def pathOcc (u : Nat) : List NElem → Nat
  | [] => 0
  | .unit v :: rest => (if v = u then 1 else 0) + pathOcc u rest
  | .net n :: rest => netOcc u n + pathOcc u rest
def netOcc (u : Nat) : Network → Nat
  | .mk p _ _ _ => pathOcc u p
end

mutual
/-- Number of cyclic network levels in a path (sub-networks whose recycle
marking is truthy), nested ones included. -/
def pathCyclic : List NElem → Nat
  | [] => 0
  | .unit _ :: rest => pathCyclic rest
  | .net n :: rest => netCyclic n + pathCyclic rest
/-- Number of cyclic network levels of a network, the root included. -/
def netCyclic : Network → Nat
  | .mk p r _ _ => (if r.truthy then 1 else 0) + pathCyclic p
end

mutual
/-- `get_all_recycles`. -/
def pathAllRecycles : List NElem → Finset Nat
  | [] => ∅
  | .unit _ :: rest => pathAllRecycles rest
  | .net n :: rest => netAllRecycles n ∪ pathAllRecycles rest
def netAllRecycles : Network → Finset Nat
  | .mk p r _ _ => r.streams ∪ pathAllRecycles p
end

/-- `nested_network_units(path)` / `set(path)` in `Network.__init__`: the union
of the elements' unit ids and the nested networks' *cached* unit sets. -/
def cachedUnits : List NElem → Finset Nat
  | [] => ∅
  | .unit u :: rest => insert u (cachedUnits rest)
  | .net n :: rest => n.units ∪ cachedUnits rest

/-- `get_recycle_sink(recycle)`: the sink of the (single) recycle stream; for a
set, Python reads the sink of an arbitrary element — under the invariant that
all recycle streams of one network share their sink we read the least id. -/
def get_recycle_sink (g : Graph) : Recycle → Option Nat
  | .none => Option.none
  | .single s => g.sinkOf s
  | .many ss => (ss.sort (· ≤ ·)).head?.bind g.sinkOf
  | .other => Option.none

/-- `Network.__init__(path, recycle)`. -/
def Network.new (g : Graph) (path : List NElem) (recycle : Recycle) : Network :=
  .mk path recycle (if recycle.truthy then get_recycle_sink g recycle else Option.none)
    (cachedUnits path)

/-- Decidable equality for `Except` results (used only to evaluate concrete
runs of the embedded operations). -/
instance {ε α : Type} [DecidableEq ε] [DecidableEq α] : DecidableEq (Except ε α) :=
  fun x y =>
    match x, y with
    | .ok a, .ok b =>
      if h : a = b then isTrue (by rw [h]) else isFalse (fun hh => h (by injection hh))
    | .error a, .error b =>
      if h : a = b then isTrue (by rw [h]) else isFalse (fun hh => h (by injection hh))
    | .ok _, .error _ => isFalse (fun hh => by injection hh)
    | .error _, .ok _ => isFalse (fun hh => by injection hh)

/-! ## Merge helpers -/

/-- `list.insert(i, x)` (Python): insert at index `i`, clamped to the end. -/
def insertAt (i : Nat) (x : NElem) (l : List NElem) : List NElem :=
  l.take i ++ x :: l.drop i

/-- Splice a path in at index `i`
(`self.path = [*path[:index], *network.path, *path[index:]]`). -/
def spliceAt (i : Nat) (q p : List NElem) : List NElem :=
  p.take i ++ q ++ p.drop i

/-- `path.remove(u)` for a unit `u`: drop the first direct occurrence.
Nested networks never compare equal to a unit (`Network.__eq__` checks the
type), so only `.unit` elements can match. -/
def eraseUnit (u : Nat) : List NElem → List NElem
  | [] => []
  | .unit v :: rest => if v = u then rest else .unit v :: eraseUnit u rest
  | .net n :: rest => .net n :: eraseUnit u rest

/-- `Network._remove_overlap(network, path_tuple)`: walk the snapshot; every
direct unit element belonging to `units` is removed from the working path. -/
def remove_overlap (units : Finset Nat) (snapshot path : List NElem) : List NElem :=
  snapshot.foldl
    (fun acc e => match e with
      | .unit v => if v ∈ units then eraseUnit v acc else acc
      | .net _ => acc) path

/-- `Network.add_recycle(stream)` on the recycle field alone; mirrors the
branch structure of the method, including the unchecked store when no recycle
is present and the early `is`-identity return. -/
def Recycle.addStream : Recycle → Recycle → Except String Recycle
  | r, .none => .ok r
  | .none, arg => .ok arg
  | r, arg =>
    if r.isSame arg then .ok r else
    match r, arg with
    | .single a, .single b => .ok (.many {a, b})
    | .single a, .many bs => .ok (.many (insert a bs))
    | .single _, .other => .error "recycles must be stream objects"
    | .many as, .single b => .ok (.many (insert b as))
    | .many as, .many bs => .ok (.many (as ∪ bs))
    | .many _, .other => .error "recycles must be stream objects"
    | .other, _ => .error "invalid recycle encountered"
    | .none, _ => .ok arg
    | .single a, .none => .ok (.single a)
    | .many as, .none => .ok (.many as)

/-- `Network.add_recycle(stream)`: only the `recycle` field is touched. -/
def add_recycle (n : Network) (arg : Recycle) : Except String Network :=
  match n with
  | .mk p r sink u => (r.addStream arg).map (fun r2 => .mk p r2 sink u)

/-- `Network._append_linear_network(network)`. -/
def append_linear_network (t n : Network) : Network :=
  .mk (t.path ++ n.path) t.recycle t.recycle_sink (t.units ∪ n.units)

/-- `Network._append_recycle_network(network)`. -/
def append_recycle_network (t n : Network) : Network :=
  .mk (t.path ++ [.net n]) t.recycle t.recycle_sink (t.units ∪ n.units)

/-- `Network._append_network(network)`: a cyclic target is first reparented
under a fresh wrapper holding its path, units and recycle marking. -/
def append_network (t n : Network) : Network :=
  if t.recycle.truthy then
    let wrap : Network := .mk t.path t.recycle t.recycle_sink t.units
    if n.recycle.truthy then
      .mk [.net wrap, .net n] .none Option.none (t.units ∪ n.units)
    else
      .mk (.net wrap :: n.path) .none Option.none (t.units ∪ n.units)
  else if n.recycle.truthy then
    append_recycle_network t n
  else
    append_linear_network t n

/-- `Network._insert_linear_network(index, network)`. -/
def insert_linear_network (i : Nat) (t n : Network) : Network :=
  .mk (spliceAt i n.path t.path) t.recycle t.recycle_sink (t.units ∪ n.units)

/-- `Network._insert_recycle_network(index, network)`: insert the incoming
network as a nested element; if the path then has a single element (the path
was empty), that nested network is flattened into the target. -/
def insert_recycle_network (i : Nat) (t n : Network) : Network :=
  let p2 := insertAt i (.net n) t.path
  let u2 := t.units ∪ n.units
  if p2.length = 1 then
    match p2 with
    | [.net inner] => .mk inner.path inner.recycle inner.recycle_sink u2
    | _ => .mk p2 t.recycle t.recycle_sink u2
  else
    .mk p2 t.recycle t.recycle_sink u2

/-- The scan of `join_linear_network`: walk the snapshot of the target path
testing `item in units`.  A nested network element is unhashable in Python
(`Network` defines `__eq__` but no `__hash__`), so the membership test raises
`TypeError` as soon as the walk reaches one. -/
def scanJoinLinear (units : Finset Nat) : List NElem → Except String (Option Nat)
  | [] => .ok Option.none
  | .unit v :: rest =>
    if v ∈ units then .ok (some 0)
    else (scanJoinLinear units rest).map (Option.map (· + 1))
  | .net _ :: _ => .error "unhashable type: Network"

/-- `Network.join_linear_network(linear_network)`. -/
def join_linear_network (t n : Network) : Except String Network :=
  let snapshot := t.path
  let cleaned := remove_overlap n.units snapshot t.path
  let t2 : Network := .mk cleaned t.recycle t.recycle_sink t.units
  (scanJoinLinear n.units snapshot).map
    (fun idx => match idx with
      | some i => insert_linear_network i t2 n
      | Option.none => append_linear_network t2 n)

/-- First index (over a snapshot of the path) of a direct, non-network element
belonging to `units` — the second loop of `join_recycle_network` and
`_add_linear_network` (`if not isa(item, Network) and item in subunits`). -/
def scanUnitIn (units : Finset Nat) : List NElem → Option Nat
  | [] => Option.none
  | .unit v :: rest =>
    if v ∈ units then some 0 else (scanUnitIn units rest).map (· + 1)
  | .net _ :: rest => (scanUnitIn units rest).map (· + 1)

mutual

/-- `Network.join_network_at_unit(network, unit)`: remove overlap, then walk
the (post-removal) path for the first nested network containing `unit` or the
first direct occurrence of `unit`, and recurse / insert accordingly.  The fuel
decreases on every step; a run of the Python method performs one step per path
element plus one per nesting level, so any fuel beyond that is never
exhausted. -/
def join_network_at_unit : Nat → Network → Network → Nat → Except String Network
  | 0, _, _, _ => .error "fuel"
  | fuel+1, t, n, u =>
    let cleaned := remove_overlap n.units t.path t.path
    let t2 : Network := .mk cleaned t.recycle t.recycle_sink t.units
    jnauScan fuel t2 n u 0 cleaned

/-- The element walk of `join_network_at_unit`; `i` is the index of the first
list argument element within the full (post-removal) path. -/
def jnauScan : Nat → Network → Network → Nat → Nat → List NElem → Except String Network
  | 0, _, _, _, _, _ => .error "fuel"
  | _+1, _, _, _, _, [] => .error "unit not in path"
  | fuel+1, t2, n, u, i, .net sub :: rest =>
    if u ∈ sub.units then
      if n.recycle.truthy then
        (join_network_at_unit fuel sub n u).map (fun sub2 =>
          Network.mk (t2.path.take i ++ .net sub2 :: rest) t2.recycle t2.recycle_sink
            (t2.units ∪ n.units))
      else .ok (insert_linear_network i t2 n)
    else jnauScan fuel t2 n u (i+1) rest
  | fuel+1, t2, n, u, i, .unit v :: rest =>
    if v = u then
      if n.recycle.truthy then .ok (insert_recycle_network i t2 n)
      else .ok (insert_linear_network i t2 n)
    else jnauScan fuel t2 n u (i+1) rest

end

mutual

/-- `Network.join_recycle_network(network)`.  When both networks close at the
same `recycle_sink` (Python `is`: both `None`, or the same unit), the incoming
recycle streams are folded into the target via `add_recycle`, the incoming
network's recycle marking is cleared, and its elements are merged as a plain
linear network.  Otherwise: remove overlap, recurse into the first nested
network sharing units, or insert the incoming network as a nested element at
the first direct member; no connection is a hard error. -/
def join_recycle_network : Nat → Network → Network → Except String Network
  | 0, _, _ => .error "fuel"
  | fuel+1, t, n =>
    if t.recycle_sink = n.recycle_sink then
      match add_recycle t n.recycle with
      | .error e => .error e
      | .ok t2 =>
        let n2 : Network := .mk n.path .none Option.none n.units
        add_linear_network fuel t2 n2
    else
      let snapshot := t.path
      let cleaned := remove_overlap n.units snapshot t.path
      let t2 : Network := .mk cleaned t.recycle t.recycle_sink t.units
      jrnScan fuel t2 n snapshot 0 cleaned

/-- The nested-network walk of `join_recycle_network`; falls through to the
direct-member walk of the snapshot when no nested network shares units. -/
def jrnScan : Nat → Network → Network → List NElem → Nat → List NElem →
    Except String Network
  | 0, _, _, _, _, _ => .error "fuel"
  | _+1, t2, n, snapshot, _, [] =>
    match scanUnitIn n.units snapshot with
    | some idx => .ok (insert_recycle_network idx t2 n)
    | Option.none => .error "networks must have units in common to join"
  | fuel+1, t2, n, snapshot, i, .net sub :: rest =>
    if n.units ∩ sub.units ≠ ∅ then
      (join_recycle_network fuel sub n).map (fun sub2 =>
        Network.mk (t2.path.take i ++ .net sub2 :: rest) t2.recycle t2.recycle_sink
          (t2.units ∪ n.units))
    else jrnScan fuel t2 n snapshot (i+1) rest
  | fuel+1, t2, n, snapshot, i, .unit _ :: rest =>
    jrnScan fuel t2 n snapshot (i+1) rest

/-- `Network._add_linear_network(network)`: like the non-feed-forward branch of
`join_recycle_network` but inserting linearly, with append as fallback. -/
def add_linear_network : Nat → Network → Network → Except String Network
  | 0, _, _ => .error "fuel"
  | fuel+1, t, n =>
    let snapshot := t.path
    let cleaned := remove_overlap n.units snapshot t.path
    let t2 : Network := .mk cleaned t.recycle t.recycle_sink t.units
    alnScan fuel t2 n snapshot 0 cleaned

/-- The nested-network walk of `_add_linear_network`. -/
def alnScan : Nat → Network → Network → List NElem → Nat → List NElem →
    Except String Network
  | 0, _, _, _, _, _ => .error "fuel"
  | _+1, t2, n, snapshot, _, [] =>
    match scanUnitIn n.units snapshot with
    | some idx => .ok (insert_linear_network idx t2 n)
    | Option.none => .ok (append_linear_network t2 n)
  | fuel+1, t2, n, snapshot, i, .net sub :: rest =>
    if n.units ∩ sub.units ≠ ∅ then
      (add_linear_network fuel sub n).map (fun sub2 =>
        Network.mk (t2.path.take i ++ .net sub2 :: rest) t2.recycle t2.recycle_sink
          (t2.units ∪ n.units))
    else alnScan fuel t2 n snapshot (i+1) rest
  | fuel+1, t2, n, snapshot, i, .unit _ :: rest =>
    alnScan fuel t2 n snapshot (i+1) rest

end

/-! ## Ordering pass (`Network.sort`) -/

/-- Direct successors of a unit that a downstream walk may move to: sinks of
its outlet streams, not crossing a stream in `ends` and never entering a
facility unit. -/
def downstream_succ (g : Graph) (ends : Finset Nat) (u : Nat) : Finset Nat :=
  ((g.outs u).filterMap (fun s =>
    if s ∈ ends then Option.none else
    match g.sinkOf s with
    | some v => if g.facility v then Option.none else some v
    | Option.none => Option.none)).toFinset

/-- One expansion step of the downstream closure. -/
def downstream_step (g : Graph) (ends : Finset Nat) (S : Finset Nat) : Finset Nat :=
  S ∪ S.biUnion (downstream_succ g ends)

/-- Modelled from the spec: `Unit.get_downstream_units(ends=ends,
facilities=False)` is an external capability of the node objects, not part of
this repository's source; per §4.5 ("the set of member nodes reachable forward
from it within the full graph") and §4.3 step 3 (the recomputed `ends` become
anchors for the ordering pass) it is the set of units reachable strictly
forward of `u`, where the walk does not cross a stream in `ends` and excludes
facility units.  Iterating one sink-expansion step once per stream of the
finite universe reaches the closure. -/
def get_downstream_units (g : Graph) (ends : Finset Nat) (u : Nat) : Finset Nat :=
  (downstream_step g ends)^[g.streamIds.length + 1] (downstream_succ g ends u)

/-- A `PathSource`: the element, its precomputed downstream unit set, and a
tag recording the identity of the Python object (its creation position), used
by `list.remove`, which removes by object identity here. -/
structure PS where
  tag : Nat
  elem : NElem
  units : Finset Nat

/-- The downstream set a `PathSource` precomputes: for a unit, its downstream
units; for a network, the union over the network's (cached) member units. -/
def psUnits (g : Graph) (ends : Finset Nat) : NElem → Finset Nat
  | .unit u => get_downstream_units g ends u
  | .net n => n.units.biUnion (get_downstream_units g ends)

/-- Build the `path_sources` list, tagging elements by position. -/
def mkPSList (g : Graph) (ends : Finset Nat) : List NElem → Nat → List PS
  | [], _ => []
  | e :: rest, k => ⟨k, e, psUnits g ends e⟩ :: mkPSList g ends rest (k+1)

/-- `PathSource.downstream_from(other)`: a unit source is downstream of
`other` when it lies in `other`'s downstream set; a network source when any of
its member units does (`self is not other` always holds between the distinct
`PathSource` objects the loop compares, i.e. distinct tags). -/
def downstream_from (a b : PS) : Bool :=
  match a.elem with
  | .unit u => decide (u ∈ b.units)
  | .net n => decide (a.tag ≠ b.tag) && decide (n.units ∩ b.units ≠ ∅)

/-- `path_sources.remove(x)`: removal by object identity (tag). -/
def removeTag (tag : Nat) : List PS → List PS
  | [] => []
  | p :: rest => if p.tag = tag then rest else p :: removeTag tag rest

/-- Python `list.insert` for `PathSource` lists. -/
def insertPS (i : Nat) (x : PS) (l : List PS) : List PS :=
  l.take i ++ x :: l.drop i

/-- The inner `j` loop of `Network.sort`: scan positions `j, j+1, …` of the
working list against the current upstream source at position `i`; a positive
`downstream_from` relocates the scanned source to position `i` and makes it
the new upstream source.  `steps` counts the remaining positions. -/
def sortInnerJ : Nat → List PS → Nat → Nat → PS → Bool → List PS × Bool
  | 0, ps, _, _, _, stop => (ps, stop)
  | steps+1, ps, i, j, upstream, stop =>
    match ps.get? j with
    | Option.none => (ps, stop)
    | some down =>
      if downstream_from upstream down then
        let ps2 := insertPS i down (removeTag down.tag ps)
        sortInnerJ steps ps2 i (j+1) down false
      else sortInnerJ steps ps i (j+1) upstream stop

/-- The outer `i` loop of one pass of `Network.sort`. -/
def sortInnerI : Nat → List PS → Nat → Nat → Bool → List PS × Bool
  | 0, ps, _, _, stop => (ps, stop)
  | steps+1, ps, i, N, stop =>
    match ps.get? i with
    | Option.none => (ps, stop)
    | some upstream =>
      let (ps2, stop2) := sortInnerJ (N - (i+1)) ps i (i+1) upstream stop
      sortInnerI steps ps2 (i+1) N stop2

/-- The bounded pass loop of `Network.sort`: at most `N * N` passes; a pass
with no relocation commits the working list; exhausting the bound emits the
`'network path could not be determined'` warning (the `Bool` component) and
leaves the original list in place — `self.path` is only assigned in the
relocation-free branch. -/
def sortPasses (orig : List PS) (N : Nat) : Nat → List PS → List PS × Bool
  | 0, _ => (orig, true)
  | k+1, cur =>
    let r := sortInnerI (N-1) cur 0 N true
    if r.2 then (r.1, false) else sortPasses orig N k r.1

mutual
/-- `Network.sort(ends)`: sort nested sub-networks first, then run the bounded
relocation loop on this level's `path_sources`.  The Python method's warning
is a side effect with no influence on the result data. -/
def sortNet (g : Graph) (ends : Finset Nat) : Network → Network
  | .mk p r sink u =>
    let p1 := sortElems g ends p
    if p1.length = 0 then .mk p1 r sink u
    else
      let ps := mkPSList g ends p1 0
      let res := sortPasses ps p1.length (p1.length * p1.length) ps
      .mk (res.1.map PS.elem) r sink u
/-- Recursive sorting of the nested sub-networks of a path. -/
def sortElems (g : Graph) (ends : Finset Nat) : List NElem → List NElem
  | [] => []
  | .unit v :: rest => .unit v :: sortElems g ends rest
  | .net n :: rest => .net (sortNet g ends n) :: sortElems g ends rest
end

/-! ## Heat-exchanger pairing pass (`add_process_heat_exchangers`) -/

/-- Python `is` between two path elements: units are identified by id;
distinct container objects are never identical. -/
def elemIs : NElem → NElem → Bool
  | .unit a, .unit b => a == b
  | _, _ => false

/-- `sink in path[:i]`: direct list membership; a nested network never equals
a unit under `Network.__eq__`. -/
def directMem (u : Nat) : List NElem → Bool
  | [] => false
  | .unit v :: rest => v == u || directMem u rest
  | .net _ :: rest => directMem u rest

/-- `any([(sink in i.units if isa(i, Network) else sink is i) for i in path[i+1:]])`:
membership that descends into the cached unit sets of nested networks. -/
def laterMem (u : Nat) : List NElem → Bool
  | [] => false
  | .unit v :: rest => v == u || laterMem u rest
  | .net n :: rest => decide (u ∈ n.units) || laterMem u rest

/-- The per-unit outlet loop of `add_process_heat_exchangers`: each outlet
whose sink is a process heat exchanger already placed before position `i` and
not placed after it is reinserted at position `i+1` (and excluded). -/
def phexOuts (g : Graph) (ex : Finset Nat) (path : List NElem) (i v : Nat) :
    List Nat → List NElem × Finset Nat
  | [] => (path, ex)
  | s :: ss =>
    if v ∈ ex then phexOuts g ex path i v ss
    else
      match g.sinkOf s with
      | Option.none => phexOuts g ex path i v ss
      | some sink =>
        if g.isHX sink && directMem sink (path.take i) && !(laterMem sink (path.drop (i+1)))
        then
          phexOuts g (insert sink ex)
            (path.take (i+1) ++ .unit sink :: path.drop (i+1)) i v ss
        else phexOuts g ex path i v ss

mutual

/-- `Network.add_process_heat_exchangers(excluded)`: index loop over the
(growing) path, recursing into nested networks with the shared `excluded`
set; afterwards a path whose last element is identical to its first loses the
duplicate last element. -/
def add_process_heat_exchangers : Nat → Graph → Finset Nat → Network →
    Except String (Network × Finset Nat)
  | 0, _, _, _ => .error "fuel"
  | fuel+1, g, ex, .mk p r sink u =>
    match phexLoop fuel g ex p 0 with
    | .error e => .error e
    | .ok (p2, ex2) =>
      let p3 :=
        match p2.head?, p2.getLast? with
        | some a, some b => if p2.length > 1 && elemIs b a then p2.dropLast else p2
        | _, _ => p2
      .ok (.mk p3 r sink u, ex2)

/-- The `enumerate(path)` loop of `add_process_heat_exchangers`: Python
iterates over the mutating list, so an element inserted at `i+1` is visited
next. -/
def phexLoop : Nat → Graph → Finset Nat → List NElem → Nat →
    Except String (List NElem × Finset Nat)
  | 0, _, _, _, _ => .error "fuel"
  | fuel+1, g, ex, path, i =>
    match path.get? i with
    | Option.none => .ok (path, ex)
    | some (.net sub) =>
      match add_process_heat_exchangers fuel g ex sub with
      | .error e => .error e
      | .ok (sub2, ex2) =>
        phexLoop fuel g ex2 (path.take i ++ .net sub2 :: path.drop (i+1)) (i+1)
    | some (.unit v) =>
      let ex1 := if g.isHX v then insert v ex else ex
      let pe := phexOuts g ex1 path i v (g.outs v)
      phexLoop fuel g pe.2 pe.1 (i+1)

end

/-! ## Recycle reduction, `first_unit`, stream queries -/

/-- The recycle-collapsing step of `reduce_recycles` on one recycle value:
a truthy recycle set whose streams all share one sink with exactly one outlet
collapses to that outlet.  A `None` sink crashes Python (`sink.outs`), and a
non-iterable recycle crashes the comprehension. -/
def reduceRec (g : Graph) : Recycle → Except String Recycle
  | .none => .ok .none
  | .single s => .ok (.single s)
  | .other => .error "recycle is not iterable"
  | .many ss =>
    if ss = ∅ then .ok (.many ss)
    else
      -- the sink set, with `None` encoded as `0` and a unit `u` as `u + 1`
      let sinks : Finset Nat :=
        ss.image (fun s => match g.sinkOf s with | some u => u + 1 | Option.none => 0)
      if sinks.card = 1 then
        match (sinks.sort (· ≤ ·)).head? with
        | some (sink+1) =>
          match g.outs sink with
          | [o] => .ok (.single o)
          | _ => .ok (.many ss)
        | some 0 => .error "NoneType has no attribute outs"
        | Option.none => .ok (.many ss)
      else .ok (.many ss)

mutual
/-- `Network.reduce_recycles()`, applied recursively to nested networks. -/
def reduce_recycles (g : Graph) : Network → Except String Network
  | .mk p r sink u =>
    match reduceRec g r with
    | .error e => .error e
    | .ok r2 =>
      match reducePath g p with
      | .error e => .error e
      | .ok p2 => .ok (.mk p2 r2 sink u)
/-- Recursive descent of `reduce_recycles` into a path. -/
def reducePath (g : Graph) : List NElem → Except String (List NElem)
  | [] => .ok []
  | .unit v :: rest => (reducePath g rest).map (.unit v :: ·)
  | .net n :: rest =>
    match reduce_recycles g n with
    | .error e => .error e
    | .ok n2 => (reducePath g rest).map (.net n2 :: ·)
end

mutual
/-- `Network.first_unit(units)`: the first unit of `units` in a pre-order walk
of the path, descending into the first nested network sharing a member. -/
def firstUnitNet (units : Finset Nat) : Network → Except String Nat
  | .mk p _ _ _ => firstUnitPath units p
/-- The path walk of `first_unit`. -/
def firstUnitPath (units : Finset Nat) : List NElem → Except String Nat
  | [] => .error "network does not contain any of the given units"
  | .net n :: rest =>
    if n.units ∩ units ≠ ∅ then firstUnitNet units n else firstUnitPath units rest
  | .unit v :: rest => if v ∈ units then .ok v else firstUnitPath units rest
end

/-- Modelled from the spec: `streams_from_units` (in `biosteam.utils`, not part
of this repository's sources) — §6: the edges attached to a unit set, i.e.
with source or sink among the units. -/
def streams_from_units (g : Graph) (units : Finset Nat) : Finset Nat :=
  (g.streamIds.filter (fun s =>
    (match g.sourceOf s with | some u => decide (u ∈ units) | Option.none => false) ||
    (match g.sinkOf s with | some u => decide (u ∈ units) | Option.none => false))).toFinset

/-- Modelled from the spec: `bst.utils.products_from_units` (not part of this
repository's sources) — §4.3 step 3: every edge whose source is a member node
and which is a final product (no sink, or sink outside the allowed set). -/
def products_from_units (g : Graph) (units : Finset Nat) : Finset Nat :=
  (g.streamIds.filter (fun s =>
    (match g.sourceOf s with | some u => decide (u ∈ units) | Option.none => false) &&
    (match g.sinkOf s with | Option.none => true | some v => !(g.allowed.contains v)))).toFinset

/-! ## The builder (`Network.from_feedstock`) -/

mutual
/-- Total element count of a path (for fuel computation). -/
def pathWeight : List NElem → Nat
  | [] => 1
  | .unit _ :: rest => 1 + pathWeight rest
  | .net n :: rest => netWeight n + pathWeight rest
/-- Total element count of a network. -/
def netWeight : Network → Nat
  | .mk p _ _ _ => 1 + pathWeight p
end

/-- A generous fuel bound for the merge operators and the heat-exchanger pass:
the recursions step at most once per path element and nesting level (plus one
inserted element per outlet stream of the flowsheet). -/
def bigFuel (g : Graph) (t n : Network) : Nat :=
  (netWeight t + netWeight n + g.streamIds.length + g.allowed.length + 2) *
    (g.streamIds.length + 2)

/-- `ends.update(streams)`: extend the membership list by the new streams. -/
def endsUpdate (l : List Nat) (s : Finset Nat) : List Nat :=
  l ++ (s.sort (· ≤ ·)).filter (fun x => !(l.contains x))

mutual

/-- The `for feed in feeds` loop of `from_feedstock` together with the
recursive construction it performs, threading the mutable `ends` list.
`from_feedstock(feed, (), ends, units)` copies its `ends` argument on entry
(`ends = set(ends)`), so the recursive call mutates only its own copy; the
caller's `ends` grows only by `ends.update(new_streams)`. -/
def feedsLoop : Nat → Graph → Network → List Nat → List Nat →
    Except String (Network × List Nat)
  | 0, _, _, _, _ => .error "fuel"
  | _+1, _, net, ends, [] => .ok (net, ends)
  | fuel+1, g, net, ends, feed :: rest =>
    if ends.contains feed ||
        (match g.sinkOf feed with | some v => g.facility v | Option.none => false) then
      feedsLoop fuel g net ends rest
    else
      match from_feedstock fuel g feed [] ends with
      | .error e => .error e
      | .ok dnet =>
        let newStreams := streams_from_units g dnet.units
        let connections := ends.toFinset ∩ newStreams
        let connecting : Finset Nat :=
          (connections.filter (fun s =>
            ((g.sourceOf s).isSome && (g.sinkOf s).isSome &&
             !(g.disjunctions.contains s) &&
             (match g.sinkOf s with
              | some v => g.allowed.contains v
              | Option.none => false)) = true)).image
            (fun s => (g.sinkOf s).getD 0)
        let ends2 := endsUpdate ends newStreams
        if connecting.card = 0 then
          feedsLoop fuel g (append_network net dnet) ends2 rest
        else if connecting.card = 1 then
          match (connecting.sort (· ≤ ·)).head? with
          | some cu =>
            match join_network_at_unit (bigFuel g net dnet) net dnet cu with
            | .error e => .error e
            | .ok net2 => feedsLoop fuel g net2 ends2 rest
          | Option.none => .error "impossible"
        else
          match firstUnitNet connecting net with
          | .error e => .error e
          | .ok cu =>
            match join_network_at_unit (bigFuel g net dnet) net dnet cu with
            | .error e => .error e
            | .ok net2 => feedsLoop fuel g net2 ends2 rest

/-- `Network.from_feedstock(feedstock, feeds, ends, units)`.  The allowed unit
set is `g.allowed`; the fuel bounds the recursion over feeds (each recursive
call passes an empty feed list, so the depth is at most two). -/
def from_feedstock : Nat → Graph → Nat → List Nat → List Nat → Except String Network
  | 0, _, _, _, _ => .error "fuel"
  | fuel+1, g, feedstock, feeds, ends0 =>
    let recycle_ends := ends0
    let fp := find_linear_and_cyclic_paths_with_recycle g feedstock ends0
    let linearPaths := fp.1
    let cyclicPaths := fp.2.1
    let ends1 := fp.2.2
    let base : Except String Network :=
      match linearPaths.map (fun p => Network.new g (p.map NElem.unit) .none) with
      | [] => .ok (Network.new g [] .none)
      | first :: restNets =>
        restNets.foldl (fun acc ln => acc.bind (fun net => join_linear_network net ln))
          (.ok first)
    match base with
    | .error e => .error e
    | .ok net0 =>
      let withRec : Except String Network :=
        cyclicPaths.foldl
          (fun acc pr => acc.bind (fun net =>
            let rn := Network.new g (pr.1.map NElem.unit) (.single pr.2)
            join_recycle_network (bigFuel g net rn) net rn))
          (.ok net0)
      match withRec with
      | .error e => .error e
      | .ok net1 =>
        let ends2 := endsUpdate ends1 (streams_from_units g net1.units)
        match feedsLoop fuel g net1 ends2 feeds with
        | .error e => .error e
        | .ok (net2, _ends3) =>
          let recycleEndsF : Finset Nat :=
            recycle_ends.toFinset ∪ netAllRecycles net2 ∪
              products_from_units g net2.units
          let net3 := sortNet g recycleEndsF net2
          match add_process_heat_exchangers (bigFuel g net3 net3) g ∅ net3 with
          | .error e => .error e
          | .ok (net4, _) => reduce_recycles g net4

end

/-! ## Concrete instances -/

/-- Graph for C2/C9 instances: units `A = 1`, `H = 2` (a process heat
exchanger), `B = 3`; streams `10` (feed → A), `11` (A → H), `12` (H → B),
`13` (B → H, held by the disjunction registry, hence an end stream). -/
def gC2 : Graph where
  sinkOf := fun s => if s = 10 then some 1 else if s = 11 then some 2 else
    if s = 12 then some 3 else if s = 13 then some 2 else none
  sourceOf := fun s => if s = 11 then some 1 else if s = 12 then some 2 else
    if s = 13 then some 3 else none
  outs := fun u => if u = 1 then [11] else if u = 2 then [12] else
    if u = 3 then [13] else []
  facility := fun _ => false
  isHX := fun u => u = 2
  allowed := [1, 2, 3]
  streamIds := [10, 11, 12, 13]
  disjunctions := [13]

/-- Graph for the ordering-pass chain claim (C5): `1 → 2 → 3 → 4`. -/
def gC5 : Graph where
  sinkOf := fun s => if s = 21 then some 2 else if s = 22 then some 3 else
    if s = 23 then some 4 else none
  sourceOf := fun s => if s = 21 then some 1 else if s = 22 then some 2 else
    if s = 23 then some 3 else none
  outs := fun u => if u = 1 then [21] else if u = 2 then [22] else
    if u = 3 then [23] else []
  facility := fun _ => false
  isHX := fun _ => false
  allowed := [1, 2, 3, 4]
  streamIds := [21, 22, 23]
  disjunctions := []

/-- Graph for the ordering-bound claim (C4): units `1` and `2` form a cycle
(each downstream of the other), unit `3` is unrelated, so every pass of the
relocation loop moves an element and the `N * N` bound is exhausted. -/
def gC4 : Graph where
  sinkOf := fun s => if s = 31 then some 2 else if s = 32 then some 1 else none
  sourceOf := fun s => if s = 31 then some 1 else if s = 32 then some 2 else none
  outs := fun u => if u = 1 then [31] else if u = 2 then [32] else []
  facility := fun _ => false
  isHX := fun _ => false
  allowed := [1, 2, 3]
  streamIds := [31, 32]
  disjunctions := []

/-- The `path_sources` list `Network.sort` builds for the path `[1, 2, 3]` of
`gC4`. -/
def psC4 : List PS := mkPSList gC4 ∅ [.unit 1, .unit 2, .unit 3] 0

mutual
/-- Structure dump of a path: unit ids in order, nested networks bracketed by
the markers `100`/`101` (no unit or stream of the concrete instances uses
them). -/
def pathDump : List NElem → List Nat
  | [] => []
  | .unit u :: r => u :: pathDump r
  | .net n :: r => 100 :: netDump n ++ 101 :: pathDump r
/-- Structure dump of a network. -/
def netDump : Network → List Nat
  | .mk p _ _ _ => pathDump p
end

/-! ## Theorems -/

/-- C1.  The claim is right and the code is wrong: on `gC1`, the traversal is
run with `ends` seeded by the disjunction registry (as `Network.from_units`
seeds it), yet the registry-held stream `7` is reported as the closing edge of
the cyclic path `[1, 3]`, because the earlier cyclic path `([1, 2], 6)` closes
at the same sink `1` and the `has_recycle` test of `fill_path` then classifies
any `ends` stream into that sink as cycle-closing — disjunction streams
included, contradicting `mark_disjunction`'s documentation ("this will prevent
the system from forming recycle loops about this stream"). -/
theorem c1_disjunction_reported_as_recycle :
    gC1.disjunctions = [7] ∧
    (find_paths_with_and_without_recycle gC1 10 gC1.disjunctions).pwr.map Prod.snd
      = [6, 7] := by
  constructor
  · rfl
  · decide

/-- C10.  `add_recycle(None)` returns immediately: the result is the very same
network — path, units, recycle and recycle sink all unchanged, whatever the
current recycle state (none, a single stream, a stream set, or even a junk
value). -/
theorem c10_add_recycle_none_is_noop (n : Network) :
    add_recycle n .none = .ok n := by
  cases n with
  | mk p r sink u => cases r <;> rfl

/-- C10 witness: the no-op at a concrete network holding a two-stream
recycle. -/
theorem c10_add_recycle_none_is_noop_witness :
    add_recycle (.mk [.unit 1, .unit 2] (.many {6, 7}) (some 1) {1, 2}) .none
      = .ok (.mk [.unit 1, .unit 2] (.many {6, 7}) (some 1) {1, 2}) :=
  c10_add_recycle_none_is_noop _

/-- C4 (amended).  When the pass loop of `Network.sort` exhausts its `N * N`
bound without a relocation-free pass it reports the warning (the `true` flag,
Python's `warn(RuntimeWarning(...))`) and never raises, but the path it leaves
behind is the *original* element list, not the partially reordered working
list: `self.path` is only assigned in the relocation-free branch, so the
relocations performed are discarded. -/
theorem c4_sort_exhaustion_keeps_original_path :
    ∀ (orig : List PS) (N fuel : Nat) (cur : List PS),
      (sortPasses orig N fuel cur).2 = true → (sortPasses orig N fuel cur).1 = orig := by
  intro orig N fuel
  induction fuel with
  | zero => intro cur _; rfl
  | succ k ih =>
    intro cur h
    simp only [sortPasses] at h ⊢
    by_cases hstop : (sortInnerI (N - 1) cur 0 N true).2 = true
    · rw [if_pos hstop] at h
      simp at h
    · rw [if_neg hstop] at h ⊢
      exact ih _ h

/-- C4 counterexample to the claim as stated: on `gC4` (units `1` and `2`
mutually downstream, unit `3` unrelated) every pass relocates, the `3 * 3`
bound is exhausted with the warning raised, and the returned order is the
original `[1, 2, 3]` (tags `[0, 1, 2]`) — while the order actually reached by
the relocations of a pass is `[2, 1, 3]` (tags `[1, 0, 2]`).  The claim's
"best-effort (partially reordered) order" is therefore not what the code
returns. -/
theorem c4_sort_exhaustion_counterexample :
    (sortPasses psC4 3 9 psC4).2 = true ∧
    (sortPasses psC4 3 9 psC4).1.map PS.tag = [0, 1, 2] ∧
    (sortInnerI 2 psC4 0 3 true).1.map PS.tag = [1, 0, 2] := by
  refine ⟨by decide, by decide, by decide⟩

/-- C4 witness: the amended theorem applied to the exhausting run on `gC4`. -/
theorem c4_sort_exhaustion_keeps_original_path_witness :
    (sortPasses psC4 3 9 psC4).1 = psC4 :=
  c4_sort_exhaustion_keeps_original_path psC4 3 9 psC4 (by decide)

/-- All ways to insert `x` into a list (auxiliary permutation enumerator). -/
def insertEverywhere (x : Nat) : List Nat → List (List Nat)
  | [] => [[x]]
  | y :: ys => (x :: y :: ys) :: (insertEverywhere x ys).map (y :: ·)

/-- A computable enumeration of all permutations of a list. -/
def perms : List Nat → List (List Nat)
  | [] => [[]]
  | x :: xs => (perms xs).foldr (fun p acc => insertEverywhere x p ++ acc) []

theorem mem_foldr_insertEverywhere {x : Nat} {q : List Nat} :
    ∀ {L : List (List Nat)},
      q ∈ L.foldr (fun p acc => insertEverywhere x p ++ acc) [] ↔
        ∃ p ∈ L, q ∈ insertEverywhere x p := by
  intro L
  induction L with
  | nil => simp
  | cons p L ih => simp [List.mem_append, ih]

theorem mem_insertEverywhere_of_split (x : Nat) :
    ∀ (s t : List Nat), s ++ x :: t ∈ insertEverywhere x (s ++ t) := by
  intro s
  induction s with
  | nil => intro t; cases t <;> simp [insertEverywhere]
  | cons y s ih =>
    intro t
    simp only [List.cons_append, insertEverywhere, List.mem_cons]
    right
    exact List.mem_map.mpr ⟨s ++ x :: t, ih t, rfl⟩

/-- Completeness of the enumerator: every permutation of `xs` is listed. -/
theorem mem_perms_of_perm : ∀ {xs p : List Nat}, p.Perm xs → p ∈ perms xs := by
  intro xs
  induction xs with
  | nil =>
    intro p h
    simp [perms, h.eq_nil]
  | cons x xs ih =>
    intro p h
    have hx : x ∈ p := h.mem_iff.mpr (List.mem_cons_self x xs)
    obtain ⟨s, t, rfl⟩ := List.append_of_mem hx
    have h2 : (s ++ t).Perm xs := by
      have h3 : (x :: (s ++ t)).Perm (x :: xs) := List.perm_middle.symm.trans h
      exact h3.cons_inv
    exact mem_foldr_insertEverywhere.mpr ⟨s ++ t, ih h2, mem_insertEverywhere_of_split x s t⟩

/-- C5.  On the strict chain `1 → 2 → 3 → 4` of `gC5`, `Network.sort` (with
the downstream-reach capability modelled from the spec) returns the path
`[1, 2, 3, 4]` from every initial permutation of the four nodes. -/
theorem c5_sort_orders_pure_chain :
    ∀ p : List Nat, p.Perm [1, 2, 3, 4] →
      netDump (sortNet gC5 ∅ (Network.new gC5 (p.map NElem.unit) .none))
        = [1, 2, 3, 4] := by
  have hall : ∀ q ∈ perms [1, 2, 3, 4],
      netDump (sortNet gC5 ∅ (Network.new gC5 (q.map NElem.unit) .none))
        = [1, 2, 3, 4] := by decide
  intro p h
  exact hall p (mem_perms_of_perm h)

/-- C5 witness: the fully reversed chain is sorted back to `[1, 2, 3, 4]`. -/
theorem c5_sort_orders_pure_chain_witness :
    netDump (sortNet gC5 ∅ (Network.new gC5 ([4, 3, 2, 1].map NElem.unit) .none))
      = [1, 2, 3, 4] :=
  c5_sort_orders_pure_chain [4, 3, 2, 1] (by decide)

/-- C2 counterexample.  The finished root sub-network `from_feedstock` builds
on `gC2` — feed `10`, no extra feeds, `ends` seeded by the disjunction
registry — is the flat path `[1, 2, 2, 3, 2]`: the node `2` (a process heat
exchanger) occupies *three* positions, once placed by enumeration, once
re-appended by `add_back_ends` (its inlet stream `13` is an end stream whose
sink is a member), and once reinserted by `add_process_heat_exchangers`. -/
theorem c2_duplicate_positions_counterexample :
    (from_feedstock 5 gC2 10 [] gC2.disjunctions).map netDump = .ok [1, 2, 2, 3, 2] ∧
    (from_feedstock 5 gC2 10 [] gC2.disjunctions).map (netOcc 2) = .ok 3 := by
  refine ⟨by decide, by decide⟩


/-! ## C8: path reduction preserves the node-set union -/

/-- Union of the node sets of a list of paths. -/
def pathsUnion : List (List Nat) → Finset Nat
  | [] => ∅
  | p :: rest => p.toFinset ∪ pathsUnion rest

theorem pathsUnion_insertByLen (x : List Nat) :
    ∀ l, pathsUnion (insertByLen x l) = x.toFinset ∪ pathsUnion l := by
  intro l
  induction l with
  | nil => rfl
  | cons y ys ih =>
    by_cases h : x.length < y.length
    · simp [insertByLen, h, pathsUnion]
    · simp only [insertByLen, if_neg h, pathsUnion, ih]
      rw [Finset.union_left_comm]

theorem pathsUnion_sortByLen_aux :
    ∀ (l : List (List Nat)) (acc : List (List Nat)),
      pathsUnion (l.foldl (fun a x => insertByLen x a) acc) =
        pathsUnion l ∪ pathsUnion acc := by
  intro l
  induction l with
  | nil => intro acc; simp [pathsUnion]
  | cons p rest ih =>
    intro acc
    simp only [List.foldl_cons, pathsUnion, ih, pathsUnion_insertByLen]
    rw [Finset.union_left_comm, Finset.union_assoc]

theorem pathsUnion_sortByLen (l : List (List Nat)) :
    pathsUnion (sortByLen l) = pathsUnion l := by
  simpa [sortByLen, pathsUnion] using pathsUnion_sortByLen_aux l []

/-- The erase-fold of `simplify_linear_path` only removes elements. -/
theorem simplify_fold_subset (sets : List (Finset Nat)) :
    ∀ (l acc : List Nat),
      (l.foldl (fun acc u => if sets.any (fun s => u ∈ s) then acc.erase u else acc) acc)
        ⊆ acc := by
  intro l
  induction l with
  | nil => intro acc; exact fun _ h => h
  | cons w ws ih =>
    intro acc
    simp only [List.foldl_cons]
    by_cases h : sets.any (fun s => w ∈ s)
    · rw [if_pos h]
      exact fun x hx => (acc.erase_sublist w).subset (ih (acc.erase w) hx)
    · rw [if_neg h]
      exact ih acc

theorem simplify_linear_path_subset (sets : List (Finset Nat)) (p : List Nat) :
    simplify_linear_path p sets ⊆ p :=
  simplify_fold_subset sets p p

/-- An element lying in none of the removal sets survives the erase-fold. -/
theorem simplify_fold_mem (sets : List (Finset Nat)) (u : Nat)
    (hu : ∀ s ∈ sets, u ∉ s) :
    ∀ (l acc : List Nat), u ∈ acc →
      u ∈ l.foldl (fun acc w => if sets.any (fun s => w ∈ s) then acc.erase w else acc) acc := by
  intro l
  induction l with
  | nil => intro acc h; exact h
  | cons w ws ih =>
    intro acc h
    simp only [List.foldl_cons]
    by_cases hw : sets.any (fun s => w ∈ s)
    · rw [if_pos hw]
      refine ih _ ?_
      have hne : u ≠ w := by
        rcases List.any_eq_true.mp hw with ⟨s, hs, hws⟩
        intro he
        exact hu s hs (he ▸ (by simpa using hws))
      exact (List.mem_erase_of_ne hne).mpr h
    · rw [if_neg hw]
      exact ih acc h

theorem simplify_linear_path_mem (sets : List (Finset Nat)) (p : List Nat) (u : Nat)
    (hu : ∀ s ∈ sets, u ∉ s) (hp : u ∈ p) : u ∈ simplify_linear_path p sets :=
  simplify_fold_mem sets u hu p p hp

/-- The `backEndStep` fold keeps its accumulator. -/
theorem backEnd_fold_superset (g : Graph) (units : Finset Nat) :
    ∀ (outs acc : List Nat), acc ⊆ outs.foldl (backEndStep g units) acc := by
  intro outs
  induction outs with
  | nil => intro acc; exact fun _ h => h
  | cons s ss ih =>
    intro acc
    refine fun x hx => ih (backEndStep g units acc s) ?_
    unfold backEndStep
    cases g.sinkOf s with
    | none => exact hx
    | some sink =>
      show x ∈ (if sink ∈ units then acc ++ [sink] else acc)
      by_cases h : sink ∈ units
      · rw [if_pos h]; exact List.mem_append_left _ hx
      · rw [if_neg h]; exact hx

/-- The `backEndStep` fold adds only members of `units`. -/
theorem backEnd_fold_subset (g : Graph) (units : Finset Nat) :
    ∀ (outs acc : List Nat) (x : Nat),
      x ∈ outs.foldl (backEndStep g units) acc → x ∈ acc ∨ x ∈ units := by
  intro outs
  induction outs with
  | nil => intro acc x h; exact Or.inl h
  | cons s ss ih =>
    intro acc x h
    simp only [List.foldl_cons] at h
    rcases ih (backEndStep g units acc s) x h with h2 | h2
    · unfold backEndStep at h2
      cases hs : g.sinkOf s with
      | none => rw [hs] at h2; exact Or.inl h2
      | some sink =>
        rw [hs] at h2
        have h2b : x ∈ (if sink ∈ units then acc ++ [sink] else acc) := h2
        by_cases hm : sink ∈ units
        · rw [if_pos hm] at h2b
          rcases List.mem_append.mp h2b with h3 | h3
          · exact Or.inl h3
          · simp only [List.mem_singleton] at h3
            exact Or.inr (h3 ▸ hm)
        · rw [if_neg hm] at h2b; exact Or.inl h2b
    · exact Or.inr h2

theorem add_back_ends_superset (g : Graph) (p : List Nat) (units : Finset Nat) :
    p ⊆ add_back_ends g p units := by
  unfold add_back_ends
  cases p.getLast? with
  | none => exact fun _ h => h
  | some last => exact backEnd_fold_superset g units (g.outs last) p

theorem add_back_ends_subset (g : Graph) (p : List Nat) (units : Finset Nat) :
    ∀ x, x ∈ add_back_ends g p units → x ∈ p ∨ x ∈ units := by
  unfold add_back_ends
  cases p.getLast? with
  | none => exact fun _ h => Or.inl h
  | some last => exact fun x h => backEnd_fold_subset g units (g.outs last) p x h

/-- `pathsUnion` as the left fold used by `simplified_linear_paths`. -/
theorem pathsUnion_eq_foldl :
    ∀ (l : List (List Nat)) (init : Finset Nat),
      (l.map List.toFinset).foldl (· ∪ ·) init = init ∪ pathsUnion l := by
  intro l
  induction l with
  | nil => intro init; simp [pathsUnion]
  | cons p rest ih =>
    intro init
    simp only [List.map_cons, List.foldl_cons, pathsUnion, ih]
    rw [Finset.union_assoc]

theorem mem_pathsUnion_of_mem {x : Nat} :
    ∀ {l : List (List Nat)} {q : List Nat}, q ∈ l → x ∈ q.toFinset → x ∈ pathsUnion l := by
  intro l
  induction l with
  | nil => intro q h; cases h
  | cons r rs ih =>
    intro q hq hx
    rcases List.mem_cons.mp hq with rfl | hq
    · exact Finset.mem_union_left _ hx
    · exact Finset.mem_union_right _ (ih hq hx)

/-- Forward inclusion for the reduction loop. -/
theorem simpLoop_subset (g : Graph) (U : Finset Nat) :
    ∀ ps, pathsUnion (simpLoop g U ps) ⊆ pathsUnion ps ∪ U := by
  intro ps
  induction ps with
  | nil => simp [simpLoop, pathsUnion]
  | cons p rest ih =>
    simp only [simpLoop]
    by_cases hE : (simplify_linear_path p (rest.map List.toFinset)).isEmpty
    · rw [if_pos hE]
      refine ih.trans ?_
      intro x hx
      rcases Finset.mem_union.mp hx with h | h
      · exact Finset.mem_union_left _ (Finset.mem_union_right _ h)
      · exact Finset.mem_union_right _ h
    · rw [if_neg hE]
      intro x hx
      simp only [pathsUnion, Finset.mem_union] at hx ⊢
      rcases hx with hx | hx
      · rcases add_back_ends_subset g _ U x (List.mem_toFinset.mp hx) with h2 | h2
        · have h3 := simplify_linear_path_subset (rest.map List.toFinset) p h2
          exact Or.inl (Or.inl (List.mem_toFinset.mpr h3))
        · exact Or.inr h2
      · rcases Finset.mem_union.mp (ih hx) with h2 | h2
        · exact Or.inl (Or.inr h2)
        · exact Or.inr h2

/-- Backward inclusion: the last path containing a node keeps it. -/
theorem simpLoop_superset (g : Graph) (U : Finset Nat) :
    ∀ ps, pathsUnion ps ⊆ pathsUnion (simpLoop g U ps) := by
  intro ps
  induction ps with
  | nil => simp [simpLoop]
  | cons p rest ih =>
    intro x hx
    simp only [pathsUnion, Finset.mem_union] at hx
    by_cases hrest : x ∈ pathsUnion rest
    · have h2 := ih hrest
      simp only [simpLoop]
      by_cases hE : (simplify_linear_path p (rest.map List.toFinset)).isEmpty
      · rw [if_pos hE]; exact h2
      · rw [if_neg hE]
        exact Finset.mem_union_right _ h2
    · rcases hx with hx | hx
      · have hxp : x ∈ p := List.mem_toFinset.mp hx
        have hnot : ∀ s ∈ rest.map List.toFinset, x ∉ s := by
          intro s hs hxs
          rcases List.mem_map.mp hs with ⟨q, hq, rfl⟩
          exact hrest (mem_pathsUnion_of_mem hq hxs)
        have hsur : x ∈ simplify_linear_path p (rest.map List.toFinset) :=
          simplify_linear_path_mem _ p x hnot hxp
        have hne : ¬ (simplify_linear_path p (rest.map List.toFinset)).isEmpty := by
          intro hE
          rw [List.isEmpty_iff] at hE
          rw [hE] at hsur
          cases hsur
        simp only [simpLoop, if_neg hne, pathsUnion]
        exact Finset.mem_union_left _
          (List.mem_toFinset.mpr (add_back_ends_superset g _ U hsur))
      · exact absurd hx hrest

theorem pathsUnion_append : ∀ a b : List (List Nat),
    pathsUnion (a ++ b) = pathsUnion a ∪ pathsUnion b := by
  intro a
  induction a with
  | nil => intro b; simp [pathsUnion]
  | cons p ps ih => intro b; simp [pathsUnion, ih, Finset.union_assoc]

theorem pathsUnion_reverse : ∀ l : List (List Nat),
    pathsUnion l.reverse = pathsUnion l := by
  intro l
  induction l with
  | nil => rfl
  | cons p ps ih =>
    simp [List.reverse_cons, pathsUnion_append, ih, pathsUnion, Finset.union_comm]

/-- C8.  The union of the node sets of the reduced linear paths equals the
union of the node sets of the raw enumerated paths: the reduction removes
nodes duplicated across paths but never drops a reachable node. -/
theorem c8_simplified_paths_cover :
    ∀ (g : Graph) (ps : List (List Nat)),
      pathsUnion (simplified_linear_paths g ps) = pathsUnion ps := by
  intro g ps
  by_cases hE : ps.isEmpty
  · simp [simplified_linear_paths, hE]
  · simp only [simplified_linear_paths, if_neg hE, pathsUnion_reverse]
    have hU : ((sortByLen ps).map List.toFinset).foldl (· ∪ ·) ∅ =
        pathsUnion (sortByLen ps) := by
      rw [pathsUnion_eq_foldl]
      simp
    rw [hU, pathsUnion_sortByLen]
    apply Finset.Subset.antisymm
    · have h := simpLoop_subset g (pathsUnion ps) (sortByLen ps)
      rw [pathsUnion_sortByLen] at h
      simpa using h
    · have h := simpLoop_superset g (pathsUnion ps) (sortByLen ps)
      rw [pathsUnion_sortByLen] at h
      exact h

/-! ## C6: the `add_recycle` algebra -/

/-- C6 counterexample to the claim as stated: when the target has no recycle
yet, `add_recycle` stores *any* argument unchecked — here the junk value
(`other`, a Python object that is neither a stream nor a set) is silently
stored instead of raising the claimed hard error. -/
theorem c6_add_recycle_unchecked_store_counterexample :
    add_recycle (.mk [.unit 1] .none Option.none {1}) .other
      = .ok (.mk [.unit 1] .other Option.none {1}) := rfl

/-- C6 (amended).  `add_recycle` is an idempotent union with the error check
applied only when a recycle is already present:
1. adding the same single stream twice equals adding it once;
2. a second distinct stream promotes a single-stream recycle to the
   two-element set of both streams;
3. a set argument unions into a set recycle;
4. a set argument unions with a single-stream recycle;
5. a `None` argument always returns silently;
6. a non-`None` argument that is neither a stream nor a set raises a hard
   error when a recycle is already present;
7. with no recycle present, any non-`None` argument — checked or not — is
   stored as-is. -/
theorem c6_add_recycle_idempotent_union :
    (∀ (n n2 : Network) (s : Nat), add_recycle n (.single s) = .ok n2 →
        add_recycle n2 (.single s) = .ok n2) ∧
    (∀ (n : Network) (r s : Nat), n.recycle = .single r → r ≠ s →
        add_recycle n (.single s)
          = .ok (.mk n.path (.many {r, s}) n.recycle_sink n.units)) ∧
    (∀ (n : Network) (ss ts : Finset Nat), n.recycle = .many ss →
        add_recycle n (.many ts)
          = .ok (.mk n.path (.many (ss ∪ ts)) n.recycle_sink n.units)) ∧
    (∀ (n : Network) (r : Nat) (ts : Finset Nat), n.recycle = .single r →
        add_recycle n (.many ts)
          = .ok (.mk n.path (.many (insert r ts)) n.recycle_sink n.units)) ∧
    (∀ n : Network, add_recycle n .none = .ok n) ∧
    (∀ n : Network, n.recycle ≠ .none → ∃ e, add_recycle n .other = .error e) ∧
    (∀ n : Network, n.recycle = .none →
        add_recycle n .other = .ok (.mk n.path .other n.recycle_sink n.units)) := by
  refine ⟨?_, ?_, ?_, ?_, ?_, ?_, ?_⟩
  · intro n n2 s h
    cases n with
    | mk p r sink u =>
      cases r with
      | none =>
        simp only [add_recycle, Recycle.addStream, Except.map] at h
        cases h
        simp [add_recycle, Recycle.addStream, Recycle.isSame, Except.map]
      | single a =>
        by_cases has : a = s
        · subst has
          simp only [add_recycle, Recycle.addStream, Recycle.isSame, beq_self_eq_true,
            if_true, Except.map] at h
          cases h
          simp [add_recycle, Recycle.addStream, Recycle.isSame, Except.map]
        · have hbeq : (a == s) = false := beq_eq_false_iff_ne.mpr has
          simp only [add_recycle, Recycle.addStream, Recycle.isSame, hbeq,
            Bool.false_eq_true, if_false, Except.map] at h
          cases h
          have hins : insert s ({a, s} : Finset Nat) = {a, s} := by
            apply Finset.insert_eq_self.mpr
            simp
          simp [add_recycle, Recycle.addStream, Recycle.isSame, Except.map, hins]
      | many ss =>
        simp only [add_recycle, Recycle.addStream, Recycle.isSame, Except.map] at h
        cases h
        simp [add_recycle, Recycle.addStream, Recycle.isSame, Except.map,
          Finset.insert_idem]
      | other =>
        simp only [add_recycle, Recycle.addStream, Recycle.isSame, Except.map] at h
        cases h
  · intro n r s hr hne
    cases n with
    | mk p rc sink u =>
      cases hr
      have hbeq : (r == s) = false := beq_eq_false_iff_ne.mpr hne
      simp [add_recycle, Recycle.addStream, Recycle.isSame, hbeq, Except.map,
        Network.path, Network.recycle_sink, Network.units]
  · intro n ss ts hr
    cases n with
    | mk p rc sink u =>
      cases hr
      simp [add_recycle, Recycle.addStream, Recycle.isSame, Except.map,
        Network.path, Network.recycle_sink, Network.units]
  · intro n r ts hr
    cases n with
    | mk p rc sink u =>
      cases hr
      simp [add_recycle, Recycle.addStream, Recycle.isSame, Except.map,
        Network.path, Network.recycle_sink, Network.units]
  · intro n
    cases n with
    | mk p rc sink u => cases rc <;> rfl
  · intro n hne
    cases n with
    | mk p rc sink u =>
      cases rc with
      | none => exact absurd rfl hne
      | single a => exact ⟨_, rfl⟩
      | many ss => exact ⟨_, rfl⟩
      | other => exact ⟨_, rfl⟩
  · intro n hr
    cases n with
    | mk p rc sink u =>
      cases hr
      rfl

/-- C6 witness: the promotion clause at concrete inputs — a single-stream
recycle `6` plus a distinct stream `7` becomes the two-element set. -/
theorem c6_add_recycle_idempotent_union_witness :
    add_recycle (.mk [.unit 1] (.single 6) (some 1) {1}) (.single 7)
      = .ok (.mk [.unit 1] (.many {6, 7}) (some 1) {1}) :=
  c6_add_recycle_idempotent_union.2.1 (.mk [.unit 1] (.single 6) (some 1) {1}) 6 7 rfl
    (by decide)

/-! ## C7: feed-forward merge of two recycle networks -/

theorem exceptMap_ok {α β : Type} {f : α → β} {x : Except String α} {r : β}
    (h : x.map f = .ok r) : ∃ v, x = .ok v ∧ r = f v := by
  cases x with
  | error e => simp [Except.map] at h
  | ok v =>
    refine ⟨v, rfl, ?_⟩
    simpa [Except.map] using h.symm

theorem pathCyclic_append : ∀ a b : List NElem,
    pathCyclic (a ++ b) = pathCyclic a + pathCyclic b := by
  intro a
  induction a with
  | nil => intro b; simp [pathCyclic]
  | cons e rest ih =>
    intro b
    cases e with
    | unit v => simp [pathCyclic, ih]
    | net nn => simp [pathCyclic, ih]; omega

theorem pathCyclic_eraseUnit (u : Nat) :
    ∀ l : List NElem, pathCyclic (eraseUnit u l) = pathCyclic l := by
  intro l
  induction l with
  | nil => rfl
  | cons e rest ih =>
    cases e with
    | unit v =>
      by_cases h : v = u
      · simp [eraseUnit, h, pathCyclic]
      · simp [eraseUnit, h, pathCyclic, ih]
    | net nn => simp [eraseUnit, pathCyclic, ih]

theorem pathCyclic_remove_overlap (U : Finset Nat) :
    ∀ (snapshot path : List NElem),
      pathCyclic (remove_overlap U snapshot path) = pathCyclic path := by
  intro snapshot
  induction snapshot with
  | nil => intro path; rfl
  | cons e rest ih =>
    intro path
    cases e with
    | unit v =>
      simp only [remove_overlap, List.foldl_cons]
      by_cases h : v ∈ U
      · rw [if_pos h]
        have := ih (eraseUnit v path)
        simpa [remove_overlap, pathCyclic_eraseUnit] using this
      · rw [if_neg h]
        exact ih path
    | net nn => exact ih path

theorem pathCyclic_take_drop (l : List NElem) (i : Nat) :
    pathCyclic l = pathCyclic (l.take i) + pathCyclic (l.drop i) := by
  conv_lhs => rw [← List.take_append_drop i l]
  exact pathCyclic_append _ _

theorem drop_cons_eq_take_append {α : Type} :
    ∀ (l : List α) (i : Nat) (e : α) (rest : List α), l.drop i = e :: rest →
      l = l.take i ++ e :: rest := by
  intro l i e rest h
  conv_lhs => rw [← List.take_append_drop i l]
  rw [h]

theorem drop_succ_of_drop_cons {α : Type} (l : List α) (i : Nat) (e : α)
    (rest : List α) (h : l.drop i = e :: rest) : l.drop (i+1) = rest := by
  have h2 : l.drop (i+1) = (l.drop i).drop 1 := by
    rw [List.drop_drop]
  rw [h2, h]
  rfl

/-- `Recycle.addStream` succeeds whenever neither side is a junk value, and
acts as a union on stream sets; the result is truthy when either side is. -/
theorem addStream_ok (r arg : Recycle) (hr : r ≠ .other) (ha : arg ≠ .other) :
    ∃ r2, r.addStream arg = .ok r2 ∧
      r2.streams = r.streams ∪ arg.streams ∧
      r2.truthy = (r.truthy || arg.truthy) := by
  cases r with
  | other => exact absurd rfl hr
  | none =>
    cases arg with
    | other => exact absurd rfl ha
    | none => exact ⟨.none, rfl, by simp [Recycle.streams], rfl⟩
    | single b => exact ⟨.single b, rfl, by simp [Recycle.streams, Recycle.truthy], rfl⟩
    | many ts => exact ⟨.many ts, rfl, by simp [Recycle.streams, Recycle.truthy], rfl⟩
  | single a =>
    cases arg with
    | other => exact absurd rfl ha
    | none => exact ⟨.single a, rfl, by simp [Recycle.streams], by simp [Recycle.truthy]⟩
    | single b =>
      by_cases hab : a = b
      · subst hab
        refine ⟨.single a, ?_, by simp [Recycle.streams], by simp [Recycle.truthy]⟩
        simp [Recycle.addStream, Recycle.isSame]
      · have hbeq : (a == b) = false := beq_eq_false_iff_ne.mpr hab
        refine ⟨.many {a, b}, ?_, ?_, by simp [Recycle.truthy]⟩
        · simp [Recycle.addStream, Recycle.isSame, hbeq]
        · simp [Recycle.streams, Finset.union_comm]
          rfl
    | many ts =>
      refine ⟨.many (insert a ts), rfl, ?_, by simp [Recycle.truthy]⟩
      simp [Recycle.streams, Finset.insert_eq]
  | many ss =>
    cases arg with
    | other => exact absurd rfl ha
    | none => exact ⟨.many ss, rfl, by simp [Recycle.streams], by simp [Recycle.truthy]⟩
    | single b =>
      refine ⟨.many (insert b ss), rfl, ?_, ?_⟩
      · simp [Recycle.streams, Finset.insert_eq, Finset.union_comm]
      · simp [Recycle.truthy]
    | many ts =>
      refine ⟨.many (ss ∪ ts), rfl, by simp [Recycle.streams], ?_⟩
      simp only [Recycle.truthy]
      by_cases hs : ss = ∅ <;> by_cases ht : ts = ∅ <;>
        simp [hs, ht, Finset.union_eq_empty]

/-- Cyclic-level bookkeeping of `_add_linear_network` and its scan, by fuel
induction: merging a recycle-free network splices its elements in without
creating or destroying any cyclic level, and never touches the target's own
recycle marking. -/
theorem aln_cyclic : ∀ fuel : Nat,
    (∀ t n r, add_linear_network fuel t n = .ok r →
      netCyclic r = netCyclic t + pathCyclic n.path ∧
      r.recycle = t.recycle ∧ r.recycle_sink = t.recycle_sink) ∧
    (∀ t2 n snapshot i rem r, t2.path.drop i = rem →
      alnScan fuel t2 n snapshot i rem = .ok r →
      netCyclic r = netCyclic t2 + pathCyclic n.path ∧
      r.recycle = t2.recycle ∧ r.recycle_sink = t2.recycle_sink) := by
  intro fuel
  induction fuel with
  | zero =>
    constructor
    · intro t n r h; cases h
    · intro t2 n snapshot i rem r _ h; cases h
  | succ fuel ih =>
    constructor
    · intro t n r h
      cases t with
      | mk p rc sink u =>
        simp only [add_linear_network] at h
        have hdrop : (Network.mk (remove_overlap n.units p p) rc sink u).path.drop 0
            = remove_overlap n.units p p := by
          simp [Network.path]
        obtain ⟨h1, h2, h3⟩ := ih.2 _ n p 0 _ r hdrop h
        refine ⟨?_, h2, h3⟩
        rw [h1]
        simp only [netCyclic, Network.path, pathCyclic_remove_overlap]
    · intro t2 n snapshot i rem r hdrop h
      cases rem with
      | nil =>
        simp only [alnScan] at h
        cases hscan : scanUnitIn n.units snapshot with
        | some idx =>
          rw [hscan] at h
          cases h
          cases t2 with
          | mk p2 rc2 sink2 u2 =>
            refine ⟨?_, rfl, rfl⟩
            simp only [insert_linear_network, netCyclic, Network.path, Network.recycle,
              Network.recycle_sink, spliceAt, pathCyclic_append]
            have := pathCyclic_take_drop p2 idx
            omega
        | none =>
          rw [hscan] at h
          cases h
          cases t2 with
          | mk p2 rc2 sink2 u2 =>
            refine ⟨?_, rfl, rfl⟩
            simp only [append_linear_network, netCyclic, Network.path, Network.recycle,
              Network.recycle_sink, pathCyclic_append]
            omega
      | cons e rest =>
        cases e with
        | net sub =>
          simp only [alnScan] at h
          by_cases hint : n.units ∩ sub.units ≠ ∅
          · rw [if_pos hint] at h
            obtain ⟨sub2, hsub2, rfl⟩ := exceptMap_ok h
            obtain ⟨hc, _hr2, _hs2⟩ := ih.1 sub n sub2 hsub2
            have hpath := drop_cons_eq_take_append _ i _ _ hdrop
            cases t2 with
            | mk p2 rc2 sink2 u2 =>
              simp only [Network.path] at hpath
              refine ⟨?_, rfl, rfl⟩
              have e1 : netCyclic (Network.mk
                    ((Network.mk p2 rc2 sink2 u2).path.take i ++ .net sub2 :: rest)
                    (Network.mk p2 rc2 sink2 u2).recycle
                    (Network.mk p2 rc2 sink2 u2).recycle_sink
                    ((Network.mk p2 rc2 sink2 u2).units ∪ n.units))
                  = (if rc2.truthy then 1 else 0) +
                    (pathCyclic (p2.take i) + (netCyclic sub2 + pathCyclic rest)) := by
                simp only [netCyclic, Network.path, Network.recycle, Network.recycle_sink,
                  Network.units, pathCyclic_append, pathCyclic]
              have e2 : netCyclic (Network.mk p2 rc2 sink2 u2)
                  = (if rc2.truthy then 1 else 0) +
                    (pathCyclic (p2.take i) + (netCyclic sub + pathCyclic rest)) := by
                simp only [netCyclic, Network.path]
                conv_lhs => rw [hpath]
                rw [pathCyclic_append]
                simp only [pathCyclic]
              rw [e1, e2, hc]
              omega
          · rw [if_neg hint] at h
            exact ih.2 t2 n snapshot (i+1) rest r
              (drop_succ_of_drop_cons _ i _ _ hdrop) h
        | unit v =>
          simp only [alnScan] at h
          exact ih.2 t2 n snapshot (i+1) rest r
            (drop_succ_of_drop_cons _ i _ _ hdrop) h

/-- C7.  `join_recycle_network(target, new)` in the feed-forward case (equal
`recycle_sink`s): the incoming network's recycle streams are folded into the
target's recycle set, the target's recycle sink is kept, and the incoming
network is merged as a plain linear network — the total number of cyclic
levels drops by exactly one (the two top-level loops become one), so no
additional nested cyclic level appears. -/
theorem c7_feed_forward_merge :
    ∀ (fuel : Nat) (t n r : Network),
      t.recycle_sink = n.recycle_sink →
      t.recycle.truthy = true → t.recycle ≠ .other →
      n.recycle.truthy = true → n.recycle ≠ .other →
      join_recycle_network fuel t n = .ok r →
      r.recycle.streams = t.recycle.streams ∪ n.recycle.streams ∧
      r.recycle_sink = t.recycle_sink ∧
      netCyclic r + 1 = netCyclic t + netCyclic n := by
  intro fuel t n r hsink ht hto hn hno h
  cases fuel with
  | zero => cases h
  | succ fuel =>
    cases t with
    | mk p rc sink u =>
      cases n with
      | mk np nrc nsink nu =>
        simp only [Network.recycle, Network.recycle_sink, Network.path, Network.units]
          at hsink ht hto hn hno h ⊢
        simp only [join_recycle_network] at h
        rw [if_pos (by simpa [Network.recycle_sink] using hsink)] at h
        obtain ⟨r2, hr2, hstreams, htruthy⟩ := addStream_ok rc nrc hto hno
        have hadd : add_recycle (Network.mk p rc sink u)
            (Network.mk np nrc nsink nu).recycle = .ok (Network.mk p r2 sink u) := by
          simp only [add_recycle, Network.recycle, hr2, Except.map]
        rw [hadd] at h
        obtain ⟨hc, hrec, hrsink⟩ := (aln_cyclic fuel).1 _ _ _ h
        simp only [Network.recycle, Network.recycle_sink, Network.path] at hc hrec hrsink
        refine ⟨?_, ?_, ?_⟩
        · rw [hrec, hstreams]
        · rw [hrsink]
        · rw [hc]
          simp only [netCyclic, Network.path]
          rw [htruthy, ht, hn]
          simp only [Bool.true_or, if_true]
          omega

/-- Concrete feed-forward target: a loop `[1, 2]` closed by stream `101`
into sink `1`. -/
def c7t : Network := .mk [.unit 1, .unit 2] (.single 101) (some 1) {1, 2}

/-- Concrete incoming network: a loop `[2, 3]` closed by stream `102` into the
same sink `1`. -/
def c7n : Network := .mk [.unit 2, .unit 3] (.single 102) (some 1) {2, 3}

/-- The result of merging `c7n` into `c7t`. -/
def c7r : Network :=
  match join_recycle_network 20 c7t c7n with
  | .ok r => r
  | .error _ => c7t

/-- C7 witness: the feed-forward theorem applied to the concrete merge. -/
theorem c7_feed_forward_merge_witness :
    c7r.recycle.streams = c7t.recycle.streams ∪ c7n.recycle.streams ∧
    c7r.recycle_sink = c7t.recycle_sink ∧
    netCyclic c7r + 1 = netCyclic c7t + netCyclic c7n :=
  c7_feed_forward_merge 20 c7t c7n c7r rfl rfl (by decide) rfl (by decide) rfl

/-! ## C2 (amended): the pairing pass duplicates only process heat
exchangers -/

theorem pathOcc_append (u : Nat) : ∀ a b : List NElem,
    pathOcc u (a ++ b) = pathOcc u a + pathOcc u b := by
  intro a
  induction a with
  | nil => intro b; simp [pathOcc]
  | cons e rest ih =>
    intro b
    cases e with
    | unit v => simp [pathOcc, ih]; omega
    | net nn => simp [pathOcc, ih]; omega

theorem pathOcc_dropLast_le (u : Nat) : ∀ l : List NElem,
    pathOcc u l.dropLast ≤ pathOcc u l := by
  intro l
  induction l with
  | nil => exact Nat.le_refl _
  | cons e rest ih =>
    cases rest with
    | nil =>
      cases e with
      | unit v => simp [pathOcc]
      | net nn => simp [pathOcc]
    | cons f rest2 =>
      have h2 : (e :: f :: rest2).dropLast = e :: (f :: rest2).dropLast := rfl
      rw [h2]
      cases e with
      | unit v =>
        simp only [pathOcc]
        exact Nat.add_le_add_left ih _
      | net nn =>
        simp only [pathOcc]
        exact Nat.add_le_add_left ih _

theorem get?_decomp {α : Type} : ∀ (l : List α) (i : Nat) (e : α),
    l.get? i = some e → l = l.take i ++ e :: l.drop (i+1) := by
  intro l
  induction l with
  | nil => intro i e h; cases i <;> cases h
  | cons x rest ih =>
    intro i e h
    cases i with
    | zero =>
      simp only [List.get?] at h
      cases h
      simp
    | succ j =>
      simp only [List.get?] at h
      have := ih j e h
      simp only [List.take_succ_cons, List.drop_succ_cons, List.cons_append]
      exact congrArg (x :: ·) this

/-- The outlet loop of the pairing pass inserts only heat-exchanger nodes:
occurrence counts of a non-HX unit are untouched. -/
theorem phexOuts_occ (g : Graph) (u : Nat) (hu : g.isHX u = false) :
    ∀ (outs : List Nat) (ex : Finset Nat) (path : List NElem) (i v : Nat),
      pathOcc u (phexOuts g ex path i v outs).1 = pathOcc u path := by
  intro outs
  induction outs with
  | nil => intro ex path i v; rfl
  | cons s ss ih =>
    intro ex path i v
    simp only [phexOuts]
    by_cases hv : v ∈ ex
    · rw [if_pos hv]
      exact ih ex path i v
    · rw [if_neg hv]
      cases hs : g.sinkOf s with
      | none => exact ih ex path i v
      | some sink =>
        show pathOcc u ((if (g.isHX sink && directMem sink (path.take i)
            && !(laterMem sink (path.drop (i+1)))) = true
          then phexOuts g (insert sink ex)
            (path.take (i+1) ++ .unit sink :: path.drop (i+1)) i v ss
          else phexOuts g ex path i v ss)).1 = pathOcc u path
        by_cases hcond : (g.isHX sink && directMem sink (path.take i)
            && !(laterMem sink (path.drop (i+1)))) = true
        · rw [if_pos hcond]
          rw [ih]
          have hsink : g.isHX sink = true := by
            simp only [Bool.and_eq_true] at hcond
            exact hcond.1.1
          have hne : sink ≠ u := fun he => by rw [he, hu] at hsink; cases hsink
          rw [pathOcc_append]
          simp only [pathOcc, if_neg hne]
          conv_rhs => rw [← List.take_append_drop (i+1) path, pathOcc_append]
          omega
        · rw [if_neg hcond]
          exact ih ex path i v

/-- Occurrence-count monotonicity of the pairing pass and its index loop, by
fuel induction: a non-HX unit never gains a position. -/
theorem phe_occ : ∀ fuel : Nat,
    (∀ (g : Graph) (ex : Finset Nat) (net r : Network) (ex2 : Finset Nat) (u : Nat),
      g.isHX u = false →
      add_process_heat_exchangers fuel g ex net = .ok (r, ex2) →
      netOcc u r ≤ netOcc u net) ∧
    (∀ (g : Graph) (ex : Finset Nat) (p : List NElem) (i : Nat) (p2 : List NElem)
        (ex2 : Finset Nat) (u : Nat),
      g.isHX u = false →
      phexLoop fuel g ex p i = .ok (p2, ex2) →
      pathOcc u p2 ≤ pathOcc u p) := by
  intro fuel
  induction fuel with
  | zero =>
    constructor
    · intro g ex net r ex2 u _ h; cases h
    · intro g ex p i p2 ex2 u _ h; cases h
  | succ fuel ih =>
    constructor
    · intro g ex net r ex2 u hu h
      cases net with
      | mk p rc sink un =>
        simp only [add_process_heat_exchangers] at h
        cases hloop : phexLoop fuel g ex p 0 with
        | error e => rw [hloop] at h; cases h
        | ok pe =>
          rw [hloop] at h
          obtain ⟨p2, ex3⟩ := pe
          have hle := ih.2 g ex p 0 p2 ex3 u hu hloop
          simp only at h
          cases hhead : p2.head? with
          | none =>
            rw [hhead] at h
            cases h
            simpa [netOcc] using hle
          | some a =>
            rw [hhead] at h
            cases hlast : p2.getLast? with
            | none =>
              rw [hlast] at h
              cases h
              simpa [netOcc] using hle
            | some b =>
              rw [hlast] at h
              have h2 : (Except.ok
                  (Network.mk (if (decide (p2.length > 1) && elemIs b a) = true
                      then p2.dropLast else p2) rc sink un, ex3)
                  : Except String (Network × Finset Nat)) = Except.ok (r, ex2) := h
              by_cases hpop : (decide (p2.length > 1) && elemIs b a) = true
              · rw [if_pos hpop] at h2
                cases h2
                simp only [netOcc]
                exact (pathOcc_dropLast_le u p2).trans hle
              · rw [if_neg hpop] at h2
                cases h2
                simpa [netOcc] using hle
    · intro g ex p i p2 ex2 u hu h
      simp only [phexLoop] at h
      cases hget : p.get? i with
      | none =>
        rw [hget] at h
        cases h
        exact Nat.le_refl _
      | some e =>
        rw [hget] at h
        cases e with
        | net sub =>
          have h1 : (match add_process_heat_exchangers fuel g ex sub with
              | Except.error e => Except.error e
              | Except.ok (sub2, ex4) =>
                phexLoop fuel g ex4 (p.take i ++ .net sub2 :: p.drop (i+1)) (i+1))
              = Except.ok (p2, ex2) := h
          cases hsub : add_process_heat_exchangers fuel g ex sub with
          | error er => rw [hsub] at h1; cases h1
          | ok se =>
            obtain ⟨sub2, ex3⟩ := se
            rw [hsub] at h1
            have hocc := ih.1 g ex sub sub2 ex3 u hu hsub
            have h2 := ih.2 g ex3 (p.take i ++ .net sub2 :: p.drop (i+1)) (i+1) p2 ex2 u hu h1
            refine h2.trans ?_
            rw [pathOcc_append]
            conv_rhs => rw [get?_decomp p i _ hget, pathOcc_append]
            simp only [pathOcc]
            omega
        | unit v =>
          have h1 : phexLoop fuel g
              (phexOuts g (if g.isHX v = true then insert v ex else ex) p i v (g.outs v)).2
              (phexOuts g (if g.isHX v = true then insert v ex else ex) p i v (g.outs v)).1
              (i+1) = Except.ok (p2, ex2) := h
          have h2 := ih.2 g _ _ (i+1) p2 ex2 u hu h1
          refine h2.trans ?_
          rw [phexOuts_occ g u hu]

/-- C2 (amended).  `add_process_heat_exchangers` inserts only `HXprocess`
nodes: for any unit that is not a process heat exchanger, the number of
positions it occupies never increases across the pass (whereas the concrete
counterexample shows an HX node gaining a position).  Together with the
`add_back_ends` re-append shown in the counterexample this replaces the
claimed absolute no-duplication. -/
theorem c2_phe_pass_never_duplicates_non_hx :
    ∀ (fuel : Nat) (g : Graph) (ex : Finset Nat) (net r : Network)
      (ex2 : Finset Nat) (u : Nat),
      g.isHX u = false →
      add_process_heat_exchangers fuel g ex net = .ok (r, ex2) →
      netOcc u r ≤ netOcc u net :=
  fun fuel => (phe_occ fuel).1

/-- Input path for the C2 witness run of the pairing pass. -/
def cPheIn : Network := Network.new gC2 [.unit 1, .unit 2, .unit 2, .unit 3] .none

/-- Output of the pairing pass on `cPheIn`. -/
def cPheOut : Network :=
  match add_process_heat_exchangers 20 gC2 ∅ cPheIn with
  | .ok (r, _) => r
  | .error _ => cPheIn

/-- Excluded set produced by the pairing pass on `cPheIn`. -/
def cPheEx : Finset Nat :=
  match add_process_heat_exchangers 20 gC2 ∅ cPheIn with
  | .ok (_, ex) => ex
  | .error _ => ∅

/-- C2 witness: the non-HX unit `3` does not gain a position in the concrete
pairing-pass run (which does insert the HX unit `2` once more). -/
theorem c2_phe_pass_never_duplicates_non_hx_witness :
    netOcc 3 cPheOut ≤ netOcc 3 cPheIn :=
  c2_phe_pass_never_duplicates_non_hx 20 gC2 ∅ cPheIn cPheOut cPheEx 3 rfl rfl

/-! ## C9: `join_linear_network` -/

/-- The elements `_remove_overlap` keeps: nested networks, and units outside
the incoming member set. -/
def keepElem (U : Finset Nat) : NElem → Bool
  | .unit v => decide (v ∉ U)
  | .net _ => true

theorem eraseUnit_cons_safe (w : Nat) (e : NElem) (acc : List NElem)
    (hU : e.isUnit = false ∨ ∃ v, e = .unit v ∧ v ≠ w) :
    eraseUnit w (e :: acc) = e :: eraseUnit w acc := by
  cases e with
  | net nn => rfl
  | unit v =>
    rcases hU with h | ⟨v2, he, hne⟩
    · cases h
    · cases he
      simp [eraseUnit, hne]

theorem remove_overlap_cons_safe (U : Finset Nat) :
    ∀ (snap : List NElem) (acc : List NElem) (e : NElem), keepElem U e = true →
      remove_overlap U snap (e :: acc) = e :: remove_overlap U snap acc := by
  intro snap
  induction snap with
  | nil => intro acc e _; rfl
  | cons s rest ih =>
    intro acc e he
    cases s with
    | net nn =>
      simp only [remove_overlap, List.foldl_cons]
      exact ih acc e he
    | unit w =>
      simp only [remove_overlap, List.foldl_cons]
      by_cases hw : w ∈ U
      · rw [if_pos hw, if_pos hw]
        have hsafe : e.isUnit = false ∨ ∃ v, e = .unit v ∧ v ≠ w := by
          cases e with
          | net nn => exact Or.inl rfl
          | unit v =>
            refine Or.inr ⟨v, rfl, ?_⟩
            simp only [keepElem, decide_eq_true_eq] at he
            intro hvw
            exact he (hvw ▸ hw)
        rw [eraseUnit_cons_safe w e acc hsafe]
        exact ih _ e he
      · rw [if_neg hw, if_neg hw]
        exact ih acc e he

/-- `_remove_overlap(network, tuple(path))` applied to the path itself equals
a filter: every direct unit element of the member set is dropped, in one left
to right sweep (each snapshot occurrence erases one occurrence from the
working list). -/
theorem remove_overlap_eq_filter (U : Finset Nat) :
    ∀ l : List NElem, remove_overlap U l l = l.filter (keepElem U) := by
  intro l
  induction l with
  | nil => rfl
  | cons e rest ih =>
    cases e with
    | unit v =>
      by_cases hv : v ∈ U
      · have hstep : remove_overlap U (NElem.unit v :: rest) (NElem.unit v :: rest)
            = remove_overlap U rest rest := by
          simp [remove_overlap, List.foldl_cons, if_pos hv, eraseUnit]
        rw [hstep, ih]
        have : keepElem U (NElem.unit v) = false := by
          simp [keepElem, hv]
        simp [List.filter, this]
      · have hkeep : keepElem U (NElem.unit v) = true := by
          simp [keepElem, hv]
        have hstep : remove_overlap U (NElem.unit v :: rest) (NElem.unit v :: rest)
            = remove_overlap U rest (NElem.unit v :: rest) := by
          simp only [remove_overlap, List.foldl_cons, if_neg hv]
        rw [hstep, remove_overlap_cons_safe U rest _ _ hkeep, ih]
        simp [List.filter, hkeep]
    | net nn =>
      have hkeep : keepElem U (NElem.net nn) = true := rfl
      have hstep : remove_overlap U (NElem.net nn :: rest) (NElem.net nn :: rest)
          = remove_overlap U rest (NElem.net nn :: rest) := rfl
      rw [hstep, remove_overlap_cons_safe U rest _ _ hkeep, ih]
      simp [List.filter, hkeep]

/-- The membership walk of `join_linear_network` over an all-unit snapshot
computes the first index whose unit belongs to the member set. -/
theorem scanJoinLinear_units (U : Finset Nat) :
    ∀ l : List NElem, (∀ e ∈ l, e.isUnit = true) →
      scanJoinLinear U l = .ok (l.findIdx? (fun e => match e with
        | .unit v => decide (v ∈ U)
        | .net _ => false)) := by
  intro l
  induction l with
  | nil => intro _; rfl
  | cons e rest ih =>
    intro hall
    cases e with
    | net nn =>
      have := hall (.net nn) (List.mem_cons_self _ _)
      simp [NElem.isUnit] at this
    | unit v =>
      have hrest : ∀ e ∈ rest, e.isUnit = true :=
        fun e he => hall e (List.mem_cons_of_mem _ he)
      by_cases hv : v ∈ U
      · simp [scanJoinLinear, hv, List.findIdx?_cons]
      · simp only [scanJoinLinear, hv, if_neg, List.findIdx?_cons]
        rw [ih hrest]
        simp [Except.map, hv]

/-- A nested network ahead of any member match makes the walk raise. -/
theorem scanJoinLinear_error (U : Finset Nat) :
    ∀ (pre : List NElem) (sub : Network) (post : List NElem),
      (∀ e ∈ pre, ∃ v, e = .unit v ∧ v ∉ U) →
      scanJoinLinear U (pre ++ .net sub :: post) = .error "unhashable type: Network" := by
  intro pre
  induction pre with
  | nil => intro sub post _; rfl
  | cons e rest ih =>
    intro sub post hall
    obtain ⟨v, rfl, hv⟩ := hall e (List.mem_cons_self _ _)
    have hrest := fun e he => hall e (List.mem_cons_of_mem _ he)
    simp only [List.cons_append, scanJoinLinear, if_neg hv]
    rw [show rest.append (NElem.net sub :: post) = rest ++ (NElem.net sub :: post) from rfl,
      ih sub post hrest]
    rfl

/-- The behaviour C9 describes, written from the claim's words: first remove
from the target's path every direct (non-nested) element that is a member of
the incoming network; then splice the incoming elements in at the index of
the first element of the target's (original) path whose identity appears in
the incoming member set — all elements before it survive the removal, so the
index is the same in the reduced path; append at the end when no element
matches. -/
def joinLinearSpec (t n : Network) : Network :=
  let cleaned := t.path.filter (keepElem n.units)
  match t.path.findIdx? (fun e => match e with
    | .unit v => decide (v ∈ n.units)
    | .net _ => false) with
  | some idx => .mk (cleaned.take idx ++ n.path ++ cleaned.drop idx)
      t.recycle t.recycle_sink (t.units ∪ n.units)
  | Option.none => .mk (cleaned ++ n.path) t.recycle t.recycle_sink (t.units ∪ n.units)

/-- C9 (amended).  For a target whose direct path elements are all nodes,
`join_linear_network` removes the direct members of the incoming network and
splices (or appends) the incoming elements exactly as described; but as soon
as the membership walk reaches a nested sub-network element before any match,
it raises a hard `TypeError` (`Network` defines `__eq__` and no `__hash__`,
so a nested element is unhashable in the `item in units` test). -/
theorem c9_join_linear_network_characterization :
    (∀ t n : Network, (∀ e ∈ t.path, e.isUnit = true) →
      join_linear_network t n = .ok (joinLinearSpec t n)) ∧
    (∀ (t n : Network) (pre : List NElem) (sub : Network) (post : List NElem),
      t.path = pre ++ .net sub :: post →
      (∀ e ∈ pre, ∃ v, e = .unit v ∧ v ∉ n.units) →
      join_linear_network t n = .error "unhashable type: Network") := by
  constructor
  · intro t n hall
    cases t with
    | mk p rc sink u =>
      simp only [Network.path] at hall
      simp only [join_linear_network, Network.path, joinLinearSpec,
        remove_overlap_eq_filter, scanJoinLinear_units n.units p hall, Except.map]
      cases hidx : p.findIdx? (fun e => match e with
        | .unit v => decide (v ∈ n.units)
        | .net _ => false) with
      | none =>
        simp only [append_linear_network, Network.path, Network.recycle,
          Network.recycle_sink, Network.units]
      | some idx =>
        simp only [insert_linear_network, spliceAt, Network.path, Network.recycle,
          Network.recycle_sink, Network.units]
  · intro t n pre sub post hpath hall
    cases t with
    | mk p rc sink u =>
      simp only [Network.path] at hpath
      subst hpath
      simp only [join_linear_network, Network.path,
        scanJoinLinear_error n.units pre sub post hall, Except.map]

/-- C9 counterexample to the claim as stated: a target whose only element is
a nested sub-network makes `join_linear_network` raise (`TypeError`) instead
of splicing or appending. -/
theorem c9_join_linear_nested_element_counterexample :
    join_linear_network
      (.mk [.net (.mk [.unit 1] .none Option.none {1})] .none Option.none {1})
      (.mk [.unit 2] .none Option.none {2})
      = .error "unhashable type: Network" := rfl

/-- C9 witness: the characterization applied to an all-unit target `[1, 2, 3]`
and an incoming network `[2, 9]` (splice at index 1 after removing unit 2). -/
theorem c9_join_linear_network_characterization_witness :
    join_linear_network (Network.new gC1 [.unit 1, .unit 2, .unit 3] .none)
      (Network.new gC1 [.unit 2, .unit 9] .none)
      = .ok (joinLinearSpec (Network.new gC1 [.unit 1, .unit 2, .unit 3] .none)
          (Network.new gC1 [.unit 2, .unit 9] .none)) :=
  c9_join_linear_network_characterization.1 _ _ (by decide)

/-! ## C3: the cached-units invariant across the merge operators -/

theorem pathFlat_append : ∀ a b : List NElem,
    pathFlat (a ++ b) = pathFlat a ∪ pathFlat b := by
  intro a
  induction a with
  | nil => intro b; simp [pathFlat]
  | cons e rest ih =>
    intro b
    cases e with
    | unit v => simp [pathFlat, ih, Finset.insert_union]
    | net nn => simp [pathFlat, ih, Finset.union_assoc]

theorem pathConsistent_append : ∀ a b : List NElem,
    pathConsistent (a ++ b) = (pathConsistent a && pathConsistent b) := by
  intro a
  induction a with
  | nil => intro b; simp [pathConsistent]
  | cons e rest ih =>
    intro b
    cases e with
    | unit v => simp [pathConsistent, ih]
    | net nn => simp [pathConsistent, ih, Bool.and_assoc]

theorem netConsistent_mk_iff (p : List NElem) (r : Recycle) (s : Option Nat)
    (u : Finset Nat) :
    netConsistent (.mk p r s u) = true ↔ u = pathFlat p ∧ pathConsistent p = true := by
  simp [netConsistent]

theorem netFlat_eq_units (m : Network) (h : netConsistent m = true) :
    netFlat m = m.units := by
  cases m with
  | mk p r s u =>
    rw [netConsistent_mk_iff] at h
    simp [netFlat, Network.units, h.1]

theorem netConsistent_pathConsistent (m : Network) (h : netConsistent m = true) :
    pathConsistent m.path = true := by
  cases m with
  | mk p r s u =>
    rw [netConsistent_mk_iff] at h
    simpa [Network.path] using h.2

theorem netConsistent_units_eq (m : Network) (h : netConsistent m = true) :
    m.units = pathFlat m.path := by
  cases m with
  | mk p r s u =>
    rw [netConsistent_mk_iff] at h
    simpa [Network.units, Network.path] using h.1

theorem pathFlat_filter_subset (U : Finset Nat) :
    ∀ l : List NElem, pathFlat (l.filter (keepElem U)) ⊆ pathFlat l := by
  intro l
  induction l with
  | nil => simp [pathFlat]
  | cons e rest ih =>
    cases e with
    | unit v =>
      by_cases hv : keepElem U (NElem.unit v) = true
      · simp only [List.filter, hv, pathFlat]
        intro x hx
        rcases Finset.mem_insert.mp hx with h | h
        · exact Finset.mem_insert.mpr (Or.inl h)
        · exact Finset.mem_insert.mpr (Or.inr (ih h))
      · simp only [List.filter, Bool.not_eq_true] at hv
        simp only [List.filter, hv, pathFlat]
        exact fun x hx => Finset.mem_insert.mpr (Or.inr (ih hx))
    | net nn =>
      simp only [List.filter, keepElem, pathFlat]
      intro x hx
      rcases Finset.mem_union.mp hx with h | h
      · exact Finset.mem_union_left _ h
      · exact Finset.mem_union_right _ (ih h)

theorem pathFlat_subset_filter_union (U : Finset Nat) :
    ∀ l : List NElem, pathFlat l ⊆ pathFlat (l.filter (keepElem U)) ∪ U := by
  intro l
  induction l with
  | nil => simp [pathFlat]
  | cons e rest ih =>
    cases e with
    | unit v =>
      by_cases hv : v ∈ U
      · have hk : keepElem U (NElem.unit v) = false := by simp [keepElem, hv]
        simp only [List.filter, hk, pathFlat]
        intro x hx
        rcases Finset.mem_insert.mp hx with rfl | h
        · exact Finset.mem_union_right _ hv
        · exact ih h
      · have hk : keepElem U (NElem.unit v) = true := by simp [keepElem, hv]
        simp only [List.filter, hk, pathFlat]
        intro x hx
        rcases Finset.mem_insert.mp hx with rfl | h
        · exact Finset.mem_union_left _ (Finset.mem_insert_self _ _)
        · rcases Finset.mem_union.mp (ih h) with h2 | h2
          · exact Finset.mem_union_left _ (Finset.mem_insert.mpr (Or.inr h2))
          · exact Finset.mem_union_right _ h2
    | net nn =>
      simp only [List.filter, keepElem, pathFlat]
      intro x hx
      rcases Finset.mem_union.mp hx with h | h
      · exact Finset.mem_union_left _ (Finset.mem_union_left _ h)
      · rcases Finset.mem_union.mp (ih h) with h2 | h2
        · exact Finset.mem_union_left _ (Finset.mem_union_right _ h2)
        · exact Finset.mem_union_right _ h2

theorem pathConsistent_filter (U : Finset Nat) :
    ∀ l : List NElem, pathConsistent l = true →
      pathConsistent (l.filter (keepElem U)) = true := by
  intro l
  induction l with
  | nil => intro _; rfl
  | cons e rest ih =>
    intro h
    cases e with
    | unit v =>
      simp only [pathConsistent] at h
      by_cases hv : keepElem U (NElem.unit v) = true
      · simp only [List.filter, hv, pathConsistent]
        exact ih h
      · simp only [Bool.not_eq_true] at hv
        simp only [List.filter, hv]
        exact ih h
    | net nn =>
      simp only [pathConsistent, Bool.and_eq_true] at h
      simp only [List.filter, keepElem, pathConsistent, Bool.and_eq_true]
      exact ⟨h.1, ih h.2⟩

theorem pathFlat_take_drop (l : List NElem) (i : Nat) :
    pathFlat l = pathFlat (l.take i) ∪ pathFlat (l.drop i) := by
  conv_lhs => rw [← List.take_append_drop i l]
  exact pathFlat_append _ _

theorem pathConsistent_take_drop (l : List NElem) (i : Nat)
    (h : pathConsistent l = true) :
    pathConsistent (l.take i) = true ∧ pathConsistent (l.drop i) = true := by
  have h2 : pathConsistent (l.take i ++ l.drop i) = true := by
    rw [List.take_append_drop]; exact h
  rw [pathConsistent_append, Bool.and_eq_true] at h2
  exact h2

theorem netFlat_path (m : Network) : netFlat m = pathFlat m.path := by
  cases m with
  | mk p r s u => simp [netFlat, Network.path]

theorem pathFlat_of_consistent (n : Network) (hn : netConsistent n = true) :
    pathFlat n.path = n.units := by
  rw [← netFlat_path]
  exact netFlat_eq_units n hn

/-- Consistency of `_insert_linear_network`. -/
theorem insert_linear_consistent (i : Nat) (t2 n : Network)
    (hc : pathConsistent t2.path = true) (hn : netConsistent n = true)
    (hu : t2.units ∪ n.units = pathFlat t2.path ∪ n.units) :
    netConsistent (insert_linear_network i t2 n) = true ∧
    (insert_linear_network i t2 n).units = t2.units ∪ n.units := by
  cases t2 with
  | mk p2 rc2 s2 u2 =>
    cases n with
    | mk np nrc ns nu =>
      simp only [Network.path, Network.units] at hc hu ⊢
      have hfn : pathFlat np = nu := by
        simpa [Network.path, Network.units] using
          pathFlat_of_consistent (Network.mk np nrc ns nu) hn
      have hcn : pathConsistent np = true := by
        simpa [Network.path] using
          netConsistent_pathConsistent (Network.mk np nrc ns nu) hn
      have hred : insert_linear_network i (Network.mk p2 rc2 s2 u2)
            (Network.mk np nrc ns nu)
          = Network.mk (spliceAt i np p2) rc2 s2 (u2 ∪ nu) := rfl
      rw [hred]
      refine ⟨?_, by simp [Network.units]⟩
      rw [netConsistent_mk_iff]
      constructor
      · simp only [spliceAt, pathFlat_append, hfn]
        rw [hu, pathFlat_take_drop p2 i]
        ext x
        simp only [Finset.mem_union]
        tauto
      · simp only [spliceAt, pathConsistent_append, Bool.and_eq_true]
        obtain ⟨h1, h2⟩ := pathConsistent_take_drop p2 i hc
        exact ⟨⟨h1, hcn⟩, h2⟩

/-- Consistency of `_append_linear_network`. -/
theorem append_linear_consistent (t2 n : Network)
    (hc : pathConsistent t2.path = true) (hn : netConsistent n = true)
    (hu : t2.units ∪ n.units = pathFlat t2.path ∪ n.units) :
    netConsistent (append_linear_network t2 n) = true ∧
    (append_linear_network t2 n).units = t2.units ∪ n.units := by
  cases t2 with
  | mk p2 rc2 s2 u2 =>
    cases n with
    | mk np nrc ns nu =>
      simp only [Network.path, Network.units] at hc hu ⊢
      have hfn : pathFlat np = nu := by
        simpa [Network.path, Network.units] using
          pathFlat_of_consistent (Network.mk np nrc ns nu) hn
      have hcn : pathConsistent np = true := by
        simpa [Network.path] using
          netConsistent_pathConsistent (Network.mk np nrc ns nu) hn
      have hred : append_linear_network (Network.mk p2 rc2 s2 u2)
            (Network.mk np nrc ns nu)
          = Network.mk (p2 ++ np) rc2 s2 (u2 ∪ nu) := rfl
      rw [hred]
      refine ⟨?_, by simp [Network.units]⟩
      rw [netConsistent_mk_iff]
      constructor
      · rw [pathFlat_append, hfn, hu]
      · rw [pathConsistent_append, Bool.and_eq_true]
        exact ⟨hc, hcn⟩

theorem insertAt_length (i : Nat) (x : NElem) (l : List NElem) :
    (insertAt i x l).length = l.length + 1 := by
  simp only [insertAt, List.length_append, List.length_cons, List.length_take,
    List.length_drop]
  omega

/-- Consistency of `_insert_recycle_network`, including its singleton-path
flattening branch. -/
theorem insert_recycle_consistent (i : Nat) (t2 n : Network)
    (hc : pathConsistent t2.path = true) (hn : netConsistent n = true)
    (hu : t2.units ∪ n.units = pathFlat t2.path ∪ n.units) :
    netConsistent (insert_recycle_network i t2 n) = true ∧
    (insert_recycle_network i t2 n).units = t2.units ∪ n.units := by
  cases t2 with
  | mk p2 rc2 s2 u2 =>
    cases n with
    | mk np nrc ns nu =>
      simp only [Network.path, Network.units] at hc hu ⊢
      have hfn : pathFlat np = nu := by
        simpa [Network.path, Network.units] using
          pathFlat_of_consistent (Network.mk np nrc ns nu) hn
      have hcn : pathConsistent np = true := by
        simpa [Network.path] using
          netConsistent_pathConsistent (Network.mk np nrc ns nu) hn
      cases p2 with
      | nil =>
        have hins : insertAt i (.net (Network.mk np nrc ns nu)) ([] : List NElem)
            = [.net (Network.mk np nrc ns nu)] := by
          simp [insertAt]
        have hred : insert_recycle_network i (Network.mk [] rc2 s2 u2)
              (Network.mk np nrc ns nu)
            = Network.mk np nrc ns (u2 ∪ nu) := by
          simp only [insert_recycle_network, Network.path, Network.units, hins,
            List.length_cons, List.length_nil]
          rfl
        rw [hred]
        have hem : u2 ∪ nu = nu := by
          rw [hu]
          simp [pathFlat]
        refine ⟨?_, by simp [Network.units, hem]⟩
        rw [netConsistent_mk_iff]
        exact ⟨by rw [hem, hfn], hcn⟩
      | cons e rest =>
        have hlen : (insertAt i (.net (Network.mk np nrc ns nu)) (e :: rest)).length
            = rest.length + 2 := by
          rw [insertAt_length]
          simp
        have hne2 : ¬ (insertAt i (.net (Network.mk np nrc ns nu))
            (e :: rest)).length = 1 := by
          rw [hlen]; omega
        have hred : insert_recycle_network i (Network.mk (e :: rest) rc2 s2 u2)
              (Network.mk np nrc ns nu)
            = Network.mk (insertAt i (.net (Network.mk np nrc ns nu)) (e :: rest))
                rc2 s2 (u2 ∪ nu) := by
          simp only [insert_recycle_network, Network.path, Network.units,
            Network.recycle, Network.recycle_sink, if_neg hne2]
        rw [hred]
        refine ⟨?_, by simp [Network.units]⟩
        rw [netConsistent_mk_iff]
        constructor
        · simp only [insertAt, pathFlat_append, pathFlat]
          rw [show netFlat (Network.mk np nrc ns nu) = nu from by
              simpa [Network.path, Network.units, netFlat] using hfn,
            hu, pathFlat_take_drop (e :: rest) i]
          ext x
          simp only [Finset.mem_union]
          tauto
        · simp only [insertAt, pathConsistent_append, pathConsistent, Bool.and_eq_true]
          obtain ⟨h1, h2⟩ := pathConsistent_take_drop (e :: rest) i hc
          exact ⟨h1, hn, h2⟩

/-- Consistency of replacing the nested network at position `i` by the result
of a recursive merge. -/
theorem replaceNet_consistent (t2 n sub sub2 : Network) (i : Nat)
    (rest : List NElem)
    (hdrop : t2.path.drop i = .net sub :: rest)
    (hc : pathConsistent t2.path = true)
    (hu : t2.units ∪ n.units = pathFlat t2.path ∪ n.units)
    (hsub2 : netConsistent sub2 = true)
    (hsu : sub2.units = sub.units ∪ n.units) :
    netConsistent (Network.mk (t2.path.take i ++ .net sub2 :: rest)
        t2.recycle t2.recycle_sink (t2.units ∪ n.units)) = true ∧
    (Network.mk (t2.path.take i ++ .net sub2 :: rest)
        t2.recycle t2.recycle_sink (t2.units ∪ n.units)).units
      = t2.units ∪ n.units := by
  obtain ⟨hct, hcd⟩ := pathConsistent_take_drop t2.path i hc
  rw [hdrop] at hcd
  simp only [pathConsistent, Bool.and_eq_true] at hcd
  obtain ⟨hcsub, hcrest⟩ := hcd
  refine ⟨?_, by simp [Network.units]⟩
  rw [netConsistent_mk_iff]
  constructor
  · simp only [pathFlat_append, pathFlat]
    rw [netFlat_eq_units sub2 hsub2, hsu, hu, pathFlat_take_drop t2.path i, hdrop]
    simp only [pathFlat]
    rw [netFlat_eq_units sub hcsub]
    ext x
    simp only [Finset.mem_union]
    tauto
  · rw [pathConsistent_append, Bool.and_eq_true]
    exact ⟨hct, by simp only [pathConsistent, Bool.and_eq_true]; exact ⟨hsub2, hcrest⟩⟩

/-- The transient working state after `_remove_overlap`: units cache ahead of
the flattened path, but only by members of the incoming network. -/
theorem cleaned_units_eq (p : List NElem) (u2 U : Finset Nat)
    (hpu : u2 = pathFlat p) :
    u2 ∪ U = pathFlat (p.filter (keepElem U)) ∪ U := by
  subst hpu
  apply Finset.Subset.antisymm
  · intro x hx
    rcases Finset.mem_union.mp hx with h | h
    · exact pathFlat_subset_filter_union U p h
    · exact Finset.mem_union_right _ h
  · intro x hx
    rcases Finset.mem_union.mp hx with h | h
    · exact Finset.mem_union_left _ (pathFlat_filter_subset U p h)
    · exact Finset.mem_union_right _ h

/-- Consistency of the nested network found at position `i` of a consistent
path. -/
theorem consistent_at_drop (l : List NElem) (i : Nat) (sub : Network)
    (rest : List NElem) (hdrop : l.drop i = .net sub :: rest)
    (hc : pathConsistent l = true) : netConsistent sub = true := by
  obtain ⟨_, hcd⟩ := pathConsistent_take_drop l i hc
  rw [hdrop] at hcd
  simp only [pathConsistent, Bool.and_eq_true] at hcd
  exact hcd.1

/-- Preservation of the cached-units invariant by the recursive merge
operators and their scans, by fuel induction. -/
theorem c3_aux : ∀ fuel : Nat,
    (∀ t n u r, netConsistent t = true → netConsistent n = true →
      join_network_at_unit fuel t n u = .ok r →
      netConsistent r = true ∧ r.units = t.units ∪ n.units) ∧
    (∀ t2 n u i rem r, pathConsistent t2.path = true → netConsistent n = true →
      t2.units ∪ n.units = pathFlat t2.path ∪ n.units → t2.path.drop i = rem →
      jnauScan fuel t2 n u i rem = .ok r →
      netConsistent r = true ∧ r.units = t2.units ∪ n.units) ∧
    (∀ t n r, netConsistent t = true → netConsistent n = true →
      join_recycle_network fuel t n = .ok r →
      netConsistent r = true ∧ r.units = t.units ∪ n.units) ∧
    (∀ t2 n snapshot i rem r, pathConsistent t2.path = true →
      netConsistent n = true →
      t2.units ∪ n.units = pathFlat t2.path ∪ n.units → t2.path.drop i = rem →
      jrnScan fuel t2 n snapshot i rem = .ok r →
      netConsistent r = true ∧ r.units = t2.units ∪ n.units) ∧
    (∀ t n r, netConsistent t = true → netConsistent n = true →
      add_linear_network fuel t n = .ok r →
      netConsistent r = true ∧ r.units = t.units ∪ n.units) ∧
    (∀ t2 n snapshot i rem r, pathConsistent t2.path = true →
      netConsistent n = true →
      t2.units ∪ n.units = pathFlat t2.path ∪ n.units → t2.path.drop i = rem →
      alnScan fuel t2 n snapshot i rem = .ok r →
      netConsistent r = true ∧ r.units = t2.units ∪ n.units) := by
  intro fuel
  induction fuel with
  | zero =>
    refine ⟨?_, ?_, ?_, ?_, ?_, ?_⟩
    · intro t n u r _ _ h; cases h
    · intro t2 n u i rem r _ _ _ _ h; cases h
    · intro t n r _ _ h; cases h
    · intro t2 n s i rem r _ _ _ _ h; cases h
    · intro t n r _ _ h; cases h
    · intro t2 n s i rem r _ _ _ _ h; cases h
  | succ fuel ih =>
    obtain ⟨ihJnau, ihJnauScan, ihJrn, ihJrnScan, ihAln, ihAlnScan⟩ := ih
    have hclean : ∀ (t n : Network), netConsistent t = true →
        pathConsistent (t.path.filter (keepElem n.units)) = true ∧
        t.units ∪ n.units = pathFlat (t.path.filter (keepElem n.units)) ∪ n.units := by
      intro t n hct
      exact ⟨pathConsistent_filter _ _ (netConsistent_pathConsistent t hct),
        cleaned_units_eq t.path t.units n.units (netConsistent_units_eq t hct)⟩
    refine ⟨?_, ?_, ?_, ?_, ?_, ?_⟩
    · -- join_network_at_unit
      intro t n u r hct hcn h
      cases t with
      | mk p rc s u2 =>
        simp only [join_network_at_unit, Network.path] at h
        rw [remove_overlap_eq_filter] at h
        obtain ⟨hc2, hu2⟩ := hclean (Network.mk p rc s u2) n hct
        simp only [Network.path, Network.units] at hc2 hu2
        have := ihJnauScan (Network.mk (p.filter (keepElem n.units)) rc s u2) n u 0 _ r
          (by simpa [Network.path] using hc2) hcn
          (by simpa [Network.path, Network.units] using hu2)
          (by simp [Network.path]) h
        simpa [Network.units] using this
    · -- jnauScan
      intro t2 n u i rem r hc hcn hu hdrop h
      cases rem with
      | nil => cases h
      | cons e rest =>
        cases e with
        | net sub =>
          simp only [jnauScan] at h
          by_cases hmem : u ∈ sub.units
          · rw [if_pos hmem] at h
            by_cases htr : n.recycle.truthy = true
            · rw [if_pos htr] at h
              obtain ⟨sub2, hsub2, rfl⟩ := exceptMap_ok h
              obtain ⟨hcon2, hun2⟩ := ihJnau sub n u sub2
                (consistent_at_drop t2.path i sub rest hdrop hc) hcn hsub2
              exact replaceNet_consistent t2 n sub sub2 i rest hdrop hc hu hcon2 hun2
            · rw [if_neg htr] at h
              cases h
              exact insert_linear_consistent i t2 n hc hcn hu
          · rw [if_neg hmem] at h
            exact ihJnauScan t2 n u (i+1) rest r hc hcn hu
              (drop_succ_of_drop_cons _ i _ _ hdrop) h
        | unit v =>
          simp only [jnauScan] at h
          by_cases hv : v = u
          · rw [if_pos hv] at h
            by_cases htr : n.recycle.truthy = true
            · rw [if_pos htr] at h
              cases h
              exact insert_recycle_consistent i t2 n hc hcn hu
            · rw [if_neg htr] at h
              cases h
              exact insert_linear_consistent i t2 n hc hcn hu
          · rw [if_neg hv] at h
            exact ihJnauScan t2 n u (i+1) rest r hc hcn hu
              (drop_succ_of_drop_cons _ i _ _ hdrop) h
    · -- join_recycle_network
      intro t n r hct hcn h
      cases t with
      | mk p rc s u2 =>
        simp only [join_recycle_network, Network.path] at h
        by_cases hsink : (Network.mk p rc s u2).recycle_sink = n.recycle_sink
        · rw [if_pos hsink] at h
          cases hadd : add_recycle (Network.mk p rc s u2) n.recycle with
          | error e => rw [hadd] at h; cases h
          | ok t2v =>
            rw [hadd] at h
            have hadd2 : (rc.addStream n.recycle).map
                (fun r2 => Network.mk p r2 s u2) = .ok t2v := hadd
            obtain ⟨r2, _hr2, ht2v⟩ := exceptMap_ok hadd2
            subst ht2v
            have hct2 : netConsistent (Network.mk p r2 s u2) = true := by
              rw [netConsistent_mk_iff] at hct ⊢
              exact hct
            have hcn2 : netConsistent
                (Network.mk n.path .none Option.none n.units) = true := by
              rw [netConsistent_mk_iff]
              constructor
              · rw [← netConsistent_units_eq n hcn]
              · exact netConsistent_pathConsistent n hcn
            obtain ⟨hr, hru⟩ := ihAln _ _ r hct2 hcn2 h
            refine ⟨hr, ?_⟩
            simpa [Network.units] using hru
        · rw [if_neg hsink] at h
          rw [remove_overlap_eq_filter] at h
          obtain ⟨hc2, hu2⟩ := hclean (Network.mk p rc s u2) n hct
          simp only [Network.path, Network.units] at hc2 hu2
          have := ihJrnScan (Network.mk (p.filter (keepElem n.units)) rc s u2) n p 0 _ r
            (by simpa [Network.path] using hc2) hcn
            (by simpa [Network.path, Network.units] using hu2)
            (by simp [Network.path]) h
          simpa [Network.units] using this
    · -- jrnScan
      intro t2 n snapshot i rem r hc hcn hu hdrop h
      cases rem with
      | nil =>
        simp only [jrnScan] at h
        cases hscan : scanUnitIn n.units snapshot with
        | some idx =>
          rw [hscan] at h
          cases h
          exact insert_recycle_consistent idx t2 n hc hcn hu
        | none => rw [hscan] at h; cases h
      | cons e rest =>
        cases e with
        | net sub =>
          simp only [jrnScan] at h
          by_cases hint : n.units ∩ sub.units ≠ ∅
          · rw [if_pos hint] at h
            obtain ⟨sub2, hsub2, rfl⟩ := exceptMap_ok h
            obtain ⟨hcon2, hun2⟩ := ihJrn sub n sub2
              (consistent_at_drop t2.path i sub rest hdrop hc) hcn hsub2
            exact replaceNet_consistent t2 n sub sub2 i rest hdrop hc hu hcon2 hun2
          · rw [if_neg hint] at h
            exact ihJrnScan t2 n snapshot (i+1) rest r hc hcn hu
              (drop_succ_of_drop_cons _ i _ _ hdrop) h
        | unit v =>
          simp only [jrnScan] at h
          exact ihJrnScan t2 n snapshot (i+1) rest r hc hcn hu
            (drop_succ_of_drop_cons _ i _ _ hdrop) h
    · -- add_linear_network
      intro t n r hct hcn h
      cases t with
      | mk p rc s u2 =>
        simp only [add_linear_network, Network.path] at h
        rw [remove_overlap_eq_filter] at h
        obtain ⟨hc2, hu2⟩ := hclean (Network.mk p rc s u2) n hct
        simp only [Network.path, Network.units] at hc2 hu2
        have := ihAlnScan (Network.mk (p.filter (keepElem n.units)) rc s u2) n p 0 _ r
          (by simpa [Network.path] using hc2) hcn
          (by simpa [Network.path, Network.units] using hu2)
          (by simp [Network.path]) h
        simpa [Network.units] using this
    · -- alnScan
      intro t2 n snapshot i rem r hc hcn hu hdrop h
      cases rem with
      | nil =>
        simp only [alnScan] at h
        cases hscan : scanUnitIn n.units snapshot with
        | some idx =>
          rw [hscan] at h
          cases h
          exact insert_linear_consistent idx t2 n hc hcn hu
        | none =>
          rw [hscan] at h
          cases h
          exact append_linear_consistent t2 n hc hcn hu
      | cons e rest =>
        cases e with
        | net sub =>
          simp only [alnScan] at h
          by_cases hint : n.units ∩ sub.units ≠ ∅
          · rw [if_pos hint] at h
            obtain ⟨sub2, hsub2, rfl⟩ := exceptMap_ok h
            obtain ⟨hcon2, hun2⟩ := ihAln sub n sub2
              (consistent_at_drop t2.path i sub rest hdrop hc) hcn hsub2
            exact replaceNet_consistent t2 n sub sub2 i rest hdrop hc hu hcon2 hun2
          · rw [if_neg hint] at h
            exact ihAlnScan t2 n snapshot (i+1) rest r hc hcn hu
              (drop_succ_of_drop_cons _ i _ _ hdrop) h
        | unit v =>
          simp only [alnScan] at h
          exact ihAlnScan t2 n snapshot (i+1) rest r hc hcn hu
            (drop_succ_of_drop_cons _ i _ _ hdrop) h

/-- The cached-units invariant across `join_linear_network` (no recursion). -/
theorem join_linear_consistent (t n r : Network) (hct : netConsistent t = true)
    (hcn : netConsistent n = true) (h : join_linear_network t n = .ok r) :
    netConsistent r = true ∧ r.units = t.units ∪ n.units := by
  cases t with
  | mk p rc s u2 =>
    simp only [join_linear_network, Network.path] at h
    rw [remove_overlap_eq_filter] at h
    have hc2 : pathConsistent (p.filter (keepElem n.units)) = true :=
      pathConsistent_filter _ _ (by
        simpa [Network.path] using
          netConsistent_pathConsistent (Network.mk p rc s u2) hct)
    have hu2 : u2 ∪ n.units = pathFlat (p.filter (keepElem n.units)) ∪ n.units :=
      cleaned_units_eq p u2 n.units (by
        simpa [Network.units, Network.path] using
          netConsistent_units_eq (Network.mk p rc s u2) hct)
    obtain ⟨idx, _hscan, rfl⟩ := exceptMap_ok h
    cases idx with
    | none =>
      have := append_linear_consistent (Network.mk (p.filter (keepElem n.units)) rc s u2) n
        (by simpa [Network.path] using hc2) hcn
        (by simpa [Network.path, Network.units] using hu2)
      simpa [Network.units] using this
    | some i =>
      have := insert_linear_consistent i (Network.mk (p.filter (keepElem n.units)) rc s u2) n
        (by simpa [Network.path] using hc2) hcn
        (by simpa [Network.path, Network.units] using hu2)
      simpa [Network.units] using this

/-- The cached-units invariant across `_append_network` (total, no errors). -/
theorem append_network_consistent (t n : Network) (hct : netConsistent t = true)
    (hcn : netConsistent n = true) :
    netConsistent (append_network t n) = true ∧
    (append_network t n).units = t.units ∪ n.units := by
  cases t with
  | mk p rc s u2 =>
    cases n with
    | mk np nrc ns nu =>
      have hfp : pathFlat p = u2 := by
        simpa [Network.path, Network.units] using
          (netConsistent_units_eq (Network.mk p rc s u2) hct).symm
      have hcp : pathConsistent p = true := by
        simpa [Network.path] using
          netConsistent_pathConsistent (Network.mk p rc s u2) hct
      have hfn : pathFlat np = nu := by
        simpa [Network.path, Network.units] using
          (netConsistent_units_eq (Network.mk np nrc ns nu) hcn).symm
      have hcnn : pathConsistent np = true := by
        simpa [Network.path] using
          netConsistent_pathConsistent (Network.mk np nrc ns nu) hcn
      simp only [append_network, Network.recycle, Network.path, Network.units,
        Network.recycle_sink]
      by_cases htr : rc.truthy = true
      · rw [if_pos htr]
        by_cases hnr : nrc.truthy = true
        · rw [if_pos hnr]
          refine ⟨?_, by simp [Network.units]⟩
          rw [netConsistent_mk_iff]
          constructor
          · simp [pathFlat, netFlat, hfp, hfn]
          · simp only [pathConsistent, Bool.and_eq_true]
            exact ⟨hct, hcn, trivial⟩
        · rw [if_neg hnr]
          refine ⟨?_, by simp [Network.units]⟩
          rw [netConsistent_mk_iff]
          constructor
          · simp [pathFlat, netFlat, hfp, hfn]
          · simp only [pathConsistent, Bool.and_eq_true]
            exact ⟨hct, hcnn⟩
      · rw [if_neg htr]
        by_cases hnr : nrc.truthy = true
        · rw [if_pos hnr]
          have hred : append_recycle_network (Network.mk p rc s u2)
                (Network.mk np nrc ns nu)
              = Network.mk (p ++ [.net (Network.mk np nrc ns nu)]) rc s (u2 ∪ nu) := rfl
          rw [hred]
          refine ⟨?_, by simp [Network.units]⟩
          rw [netConsistent_mk_iff]
          constructor
          · rw [pathFlat_append]
            simp [pathFlat, netFlat, hfp, hfn]
          · rw [pathConsistent_append, Bool.and_eq_true]
            refine ⟨hcp, ?_⟩
            simp only [pathConsistent, Bool.and_eq_true]
            exact ⟨hcn, trivial⟩
        · rw [if_neg hnr]
          have := append_linear_consistent (Network.mk p rc s u2) (Network.mk np nrc ns nu)
            (by simpa [Network.path] using hcp) hcn
            (by simp [Network.path, Network.units, hfp])
          simpa [Network.units] using this

/-- C3.  After each merge operation completes, the cached `units` set of every
sub-network of the result equals the flattened node set of its path
(`netConsistent`), and the root's cache is exactly the union of the two
operands' caches — for `join_linear_network`, `join_network_at_unit`,
`join_recycle_network` and `_append_network` (whose constituent
`_add_linear_network`, `_insert_*` and `_append_*` steps are covered by the
same induction), given operands satisfying the invariant. -/
theorem c3_merge_ops_preserve_units_cache :
    (∀ t n r : Network, netConsistent t = true → netConsistent n = true →
      join_linear_network t n = .ok r →
      netConsistent r = true ∧ r.units = t.units ∪ n.units) ∧
    (∀ (fuel : Nat) (t n : Network) (u : Nat) (r : Network),
      netConsistent t = true → netConsistent n = true →
      join_network_at_unit fuel t n u = .ok r →
      netConsistent r = true ∧ r.units = t.units ∪ n.units) ∧
    (∀ (fuel : Nat) (t n r : Network),
      netConsistent t = true → netConsistent n = true →
      join_recycle_network fuel t n = .ok r →
      netConsistent r = true ∧ r.units = t.units ∪ n.units) ∧
    (∀ t n : Network, netConsistent t = true → netConsistent n = true →
      netConsistent (append_network t n) = true ∧
      (append_network t n).units = t.units ∪ n.units) :=
  ⟨join_linear_consistent,
   fun fuel => (c3_aux fuel).1,
   fun fuel => (c3_aux fuel).2.2.1,
   append_network_consistent⟩

/-- Target of the C3 witness run. -/
def c3t : Network := .mk [.unit 1, .unit 2] .none Option.none {1, 2}

/-- Incoming network of the C3 witness run. -/
def c3n : Network := .mk [.unit 2, .unit 9] .none Option.none {2, 9}

/-- Result of the C3 witness run of `join_linear_network`. -/
def c3r : Network :=
  match join_linear_network c3t c3n with
  | .ok r => r
  | .error _ => c3t

/-- C3 witness: the invariant theorem applied to a concrete
`join_linear_network` run. -/
theorem c3_merge_ops_preserve_units_cache_witness :
    netConsistent c3r = true ∧ c3r.units = c3t.units ∪ c3n.units :=
  c3_merge_ops_preserve_units_cache.1 c3t c3n c3r (by decide) (by decide) rfl
